import Mathlib

/-!
Verification of the feasible-solution construction and repair engine of the
era-routing genetic algorithm (GeneticAlgorithm/modules/ga_operators.py).

The embedding uses exact rationals for the Python floats.  Python exceptions
(AssertionError, ZeroDivisionError) are modelled with the `Except` monad.
Randomness is modelled by universally quantified oracles: a shuffled index
list stands for `random.shuffle`, a list of unit-interval draws stands for
`random.uniform(a, b) = a + (b - a) * random.random()`, and a link-visiting
order stands for `random.sample(keys, k=len(keys))`.

The tolerance constants ACCURACY_VALUE and ACCURACY_ZERO_VALUE are imported by
ga_operators.py from modules/definitions.py, a file absent from the sources.
Modelled from the spec: they are the spec's tolerance epsilon, kept as
explicit parameters `eps` (ACCURACY_VALUE) and `zTol` (ACCURACY_ZERO_VALUE).
For a comparison against 0, `math.isclose(v, 0, abs_tol=t)` holds exactly
when |v| <= t, because the default relative tolerance term never dominates
when the reference value is 0.
-/

/-- Errors of the repair engine.  The first four model the AssertionError and
ZeroDivisionError exits of ga_operators.py (`remove_excess` lines 809-811,
813, 847-849, 852-859).  `outOfFuel` is an artefact of totalising the
unbounded `while` loop of `_validate_link_capacity_constraint` (lines
461-505) with a fuel parameter; the Python loop has no iteration cap, so no
source line corresponds to it. -/
inductive GaError where
  | excessExceedsTotal
  | divisionByZero
  | negativeValue
  | removalFailed
  | outOfFuel
deriving DecidableEq, Repr

deriving instance DecidableEq for Except

/-- Models the draw loop of `remove_excess` (ga_operators.py lines 822-830):
for k in range(n-1), with `x_sum = sum(x[0:k])` and `y_sum = sum(y[k+1:n])`,
draw `x_k` uniformly from [max(0, z - x_sum - y_sum), min(y[k], z - x_sum)].
Here `ys` is the suffix `y[k:]` of the shuffled normalised values, `xsum`
accumulates `sum(x[0:k])`, and each `u` in `us` is the unit-interval draw of
`random.uniform(lo, hi) = lo + (hi - lo) * u`. -/
def drawXs (z : ℚ) : List ℚ → List ℚ → ℚ → List ℚ
  | _, [], _ => []
  | [], _ :: _, _ => []
  | yk :: ytl, u :: us, xsum =>
    let lo := max 0 (z - xsum - ytl.sum)
    let hi := min yk (z - xsum)
    let xk := lo + (hi - lo) * u
    xk :: drawXs z ytl us (xsum + xk)

/-- The complete draw list of `remove_excess`: the n-1 drawn values followed
by the final `x.append(z - sum(x))` of ga_operators.py line 832. -/
def xFull (z : ℚ) (y : List ℚ) (us : List ℚ) : List ℚ :=
  drawXs z y us 0 ++ [z - (drawXs z y us 0).sum]

/-- Models lines 813-841 of ga_operators.py: normalise by the total, shuffle
by `perm`, draw, undo the shuffle (`sorted_x[idx] = x[i]` for
`i, idx in enumerate(y_index_shuffled)`, hence `sorted_x[idx] =
x[perm.indexOf idx]`), then `repaired_values[idx] = values[idx] -
sorted_x[idx] * total`. -/
def repairedList (values : List ℚ) (excess : ℚ) (perm : List ℕ) (us : List ℚ) : List ℚ :=
  let total := values.sum
  let z := excess / total
  let y := perm.map (fun i => (values.map (fun v => v / total)).getD i 0)
  let sortedX := (List.range values.length).map
    (fun idx => (xFull z y us).getD (perm.indexOf idx) 0)
  (List.range values.length).map
    (fun idx => values.getD idx 0 - sortedX.getD idx 0 * total)

/-- Models the clamping loop of `remove_excess` (ga_operators.py lines
843-849): every entry within `zTol` of zero is set to exactly zero, and a
remaining negative entry raises AssertionError. -/
def clampRepairedValues (zTol : ℚ) : List ℚ → Except GaError (List ℚ)
  | [] => .ok []
  | v :: rest =>
    if |v| ≤ zTol then
      match clampRepairedValues zTol rest with
      | .ok r => .ok (0 :: r)
      | .error e => .error e
    else if v < 0 then .error .negativeValue
    else
      match clampRepairedValues zTol rest with
      | .ok r => .ok (v :: r)
      | .error e => .error e

/-- Models `remove_excess(values, excess)` (ga_operators.py lines 757-861).
`perm` is the shuffled index list `y_index_shuffled`, `us` the stream of
unit-interval draws (one per loop iteration, n-1 in total).  Steps, in source
order: raise AssertionError if `excess > total`; raise ZeroDivisionError if
`total == 0` (the Python division `excess / total` at line 813); build the
repaired list; clamp near-zero entries and raise on negatives; finally raise
AssertionError unless `sum(repaired)` is within `eps` of
`sum(values) - excess`. -/
def remove_excess (zTol eps : ℚ) (values : List ℚ) (excess : ℚ)
    (perm : List ℕ) (us : List ℚ) : Except GaError (List ℚ) :=
  let total := values.sum
  if total < excess then .error .excessExceedsTotal
  else if total = 0 then .error .divisionByZero
  else
    match clampRepairedValues zTol (repairedList values excess perm us) with
    | .error e => .error e
    | .ok r => if |r.sum - (values.sum - excess)| ≤ eps then .ok r
               else .error .removalFailed

/-- Model of a Flow (modules/flow.py): `pathIds` is `get_path_ids()` (the
insertion-ordered keys of the path dictionary, also the iteration order of
`enumerate(flow.paths)`), `pathCosts` the aligned `path.cost` values, and
`requestedRate` the parsed DataRate. -/
structure FlowModel where
  pathIds : List ℕ
  pathCosts : List ℚ
  requestedRate : ℚ

/-- Models the write-back loop `for index, path_id in enumerate(flow.paths):
chromosome[path_id] = data_per_path[index]` (ga_operators.py lines 441-442):
entries are stored pairwise in path-id order. -/
def writeBack (c : List ℚ) (ids : List ℕ) (vals : List ℚ) : List ℚ :=
  (ids.zip vals).foldl (fun ch pv => ch.set pv.1 pv.2) c

/-- Models the flow loop of `_validate_flow_constraint` (ga_operators.py
lines 426-447), one flow at a time: gather the flow's per-path rates, and if
their sum strictly exceeds the requested rate remove the excess with
`remove_excess` and write the result back.  `rand i` supplies the shuffle
permutation and uniform draws consumed by the i-th flow's repair. -/
def validateFlowAux (zTol eps : ℚ) (rand : ℕ → List ℕ × List ℚ) :
    List FlowModel → ℕ → List ℚ → Except GaError (List ℚ)
  | [], _, c => .ok c
  | f :: rest, i, c =>
    let dpp := f.pathIds.map (fun p => c.getD p 0)
    if 0 < dpp.sum - f.requestedRate then
      match remove_excess zTol eps dpp (dpp.sum - f.requestedRate) (rand i).1 (rand i).2 with
      | .error e => .error e
      | .ok dpp2 => validateFlowAux zTol eps rand rest (i + 1) (writeBack c f.pathIds dpp2)
    else validateFlowAux zTol eps rand rest (i + 1) c

/-- Models `_validate_flow_constraint(chromosome)` (ga_operators.py lines
413-447). -/
def validate_flow_constraint (zTol eps : ℚ) (flows : List FlowModel)
    (rand : ℕ → List ℕ × List ℚ) (c : List ℚ) : Except GaError (List ℚ) :=
  validateFlowAux zTol eps rand flows 0 c

/-- Topology invariant: every path id appears in at most one flow's path
mapping (spec section 3, "path ids are globally unique"). -/
def FlowsDisjoint (flows : List FlowModel) : Prop :=
  List.Pairwise (fun f g => ∀ p ∈ f.pathIds, p ∉ g.pathIds) flows

/-- Model of a Link (modules/link.py): its id and capacity (cost is not used
by the repair engine). -/
structure LinkModel where
  id : ℕ
  capacity : ℚ

/-- Model of the Network object (modules/network.py): the link dictionary,
the binary path-times-link `network_matrix`, and the
`link id -> list of ack path ids` map built by
`_generate_link_ack_path_usage_map`. -/
structure NetModel where
  links : List LinkModel
  matrix : ℕ → ℕ → ℚ
  ackPaths : ℕ → List ℕ

/-- The ACK overhead constant 0.0458 of ga_operators.py line 478. -/
def ackFactor : ℚ := 458 / 10000

/-- Column `l` of `np.array(chromosome)[:, np.newaxis] * network_matrix`
(ga_operators.py lines 467-472): entry p is `chromosome[p] * matrix[p][l]`. -/
def linkColumn (net : NetModel) (c : List ℚ) (l : ℕ) : List ℚ :=
  (List.range c.length).map (fun p => c.getD p 0 * net.matrix p l)

/-- Realized usage of link `l` (ga_operators.py lines 473-478): the column
sum plus `chromosome[ack_path] * 0.0458` for every ack path routed over the
link. -/
def linkUsage (net : NetModel) (c : List ℚ) (l : ℕ) : ℚ :=
  (linkColumn net c l).sum +
    ((net.ackPaths l).map (fun a => c.getD a 0 * ackFactor)).sum

/-- `network.get_link_capacity(link_id)`: dictionary lookup by link id. -/
def capacityOf (net : NetModel) (l : ℕ) : ℚ :=
  ((net.links.find? (fun L => L.id == l)).map LinkModel.capacity).getD 0

/-- Models the repair of one over-provisioned link (ga_operators.py lines
482-505): `excess = usage - capacity`, `non_zero_paths` the paths with a
positive column entry, `remove_excess` on the whole column, and write-back
of the repaired entries at exactly the non-zero paths. -/
def repairLink (net : NetModel) (zTol eps : ℚ) (c : List ℚ) (l : ℕ)
    (perm : List ℕ) (us : List ℚ) : Except GaError (List ℚ) :=
  let col := linkColumn net c l
  let excess := linkUsage net c l - capacityOf net l
  let nonZero := (List.range c.length).filter (fun p => decide (0 < col.getD p 0))
  match remove_excess zTol eps col excess perm us with
  | .error e => .error e
  | .ok rep => .ok (nonZero.foldl (fun ch p => ch.set p (rep.getD p 0)) c)

/-- Result of one scan over the links in a random order: either no link is
over capacity, or the first violated link was repaired, or the repair
raised. -/
inductive ScanResult where
  | noViolation
  | failed (e : GaError)
  | repaired (c2 : List ℚ)
deriving DecidableEq, Repr

/-- Models one pass of the `for link_id in random.sample(...)` loop
(ga_operators.py lines 470-505): visit links in the given order and repair
the first one whose usage strictly exceeds its capacity, then break. -/
def scanLinks (net : NetModel) (zTol eps : ℚ) (c : List ℚ) (order : List ℕ)
    (perm : List ℕ) (us : List ℚ) : ScanResult :=
  match order with
  | [] => .noViolation
  | l :: rest =>
    if capacityOf net l < linkUsage net c l then
      match repairLink net zTol eps c l perm us with
      | .error e => .failed e
      | .ok c2 => .repaired c2
    else scanLinks net zTol eps c rest perm us

/-- Models `_validate_link_capacity_constraint(chromosome)` (ga_operators.py
lines 449-510): repeat full scans until one finds no violation.  The Python
`while` loop has no iteration cap; `fuel` totalises it, and exhausting the
fuel returns the artificial `outOfFuel` marker that no Python code path
produces.  `rand i` supplies the link visiting order and the shuffle and
uniform draws consumed by a repair in the pass with remaining fuel `i`. -/
def validate_link_capacity_constraint (net : NetModel) (zTol eps : ℚ)
    (rand : ℕ → List ℕ × List ℕ × List ℚ) : ℕ → List ℚ → Except GaError (List ℚ)
  | 0, _ => .error .outOfFuel
  | fuel + 1, c =>
    match scanLinks net zTol eps c (rand fuel).1 (rand fuel).2.1 (rand fuel).2.2 with
    | .noViolation => .ok c
    | .failed e => .error e
    | .repaired c2 => validate_link_capacity_constraint net zTol eps rand fuel c2

/-- Number of links whose realized usage strictly exceeds their capacity:
the termination measure of the repair loop. -/
def violatedCount (net : NetModel) (c : List ℚ) : ℕ :=
  (net.links.filter (fun L => decide (capacityOf net L.id < linkUsage net c L.id))).length

/-- Models the inner swap loop of `mate_chromosomes` (ga_operators.py lines
149-152): for every path id of the flow, exchange the entries of the two
chromosomes through a temporary. -/
def swapIds (ids : List ℕ) (cs : List ℚ × List ℚ) : List ℚ × List ℚ :=
  ids.foldl
    (fun cs2 p => (cs2.1.set p (cs2.2.getD p 0), cs2.2.set p (cs2.1.getD p 0))) cs

/-- Models the flow loop of `mate_chromosomes` (ga_operators.py lines
145-152): each flow's coin (`random.random() < random_split_ratio`) decides
whether that flow's whole sub-vector is exchanged. -/
def swapFlowsAux (coins : ℕ → Bool) :
    List FlowModel → ℕ → List ℚ × List ℚ → List ℚ × List ℚ
  | [], _, cs => cs
  | f :: rest, i, cs =>
    swapFlowsAux coins rest (i + 1) (if coins i then swapIds f.pathIds cs else cs)

/-- The pre-repair crossover of two parents. -/
def swapFlows (flows : List FlowModel) (coins : ℕ → Bool) (c1 c2 : List ℚ) :
    List ℚ × List ℚ :=
  swapFlowsAux coins flows 0 (c1, c2)

/-- Models `mate_chromosomes(chromosome_1, chromosome_2)` (ga_operators.py
lines 127-159): swap whole flows between the parents, then run only
`_validate_link_capacity_constraint` on each child (no flow-rate repair). -/
def mate_chromosomes (net : NetModel) (zTol eps : ℚ) (flows : List FlowModel)
    (coins : ℕ → Bool) (rand1 rand2 : ℕ → List ℕ × List ℕ × List ℚ) (fuel : ℕ)
    (c1 c2 : List ℚ) : Except GaError (List ℚ) × Except GaError (List ℚ) :=
  (validate_link_capacity_constraint net zTol eps rand1 fuel
      (swapFlows flows coins c1 c2).1,
   validate_link_capacity_constraint net zTol eps rand2 fuel
      (swapFlows flows coins c1 c2).2)

/-- A chromosome restricted to one flow's paths: the flow's sub-vector. -/
def subVec (c : List ℚ) (f : FlowModel) : List ℚ :=
  f.pathIds.map (fun p => c.getD p 0)

/-- The four mutation strategies of ga_operators.py (MutationType of
modules/ga_statistics.py as used in `mutate_chromosome`). -/
inductive MutationType where
  | minPath
  | minCost
  | minPathStdDev
  | maxFlow
deriving DecidableEq, Repr

/-- Models the per-flow strategy dispatch of `mutate_chromosome`
(ga_operators.py lines 177-193): fixed thresholds on the uniform draw,
`rand_num < 0.25` min-path, `< 0.50` min-cost, `< 0.75` min-path-std-dev,
otherwise max-flow. -/
def mutationStrategyFor (r : ℚ) : MutationType :=
  if r < 1/4 then .minPath
  else if r < 1/2 then .minCost
  else if r < 3/4 then .minPathStdDev
  else .maxFlow

/-- Models the cumulative-probability table built in `GaOperators.__init__`
(ga_operators.py lines 51-59): `cumulativeProbability += probability` and
append `MutationFunction(cumulativeProbability, function)` for each
configured pair. -/
def buildMutationFunctions (probs : List ℚ) (fns : List MutationType) :
    List (ℚ × MutationType) :=
  ((probs.zip fns).foldl
    (fun acc pf => (acc.1 + pf.1, acc.2 ++ [(acc.1 + pf.1, pf.2)])) (0, [])).2

/-- Modelled from the spec: claim C7's selection rule, "the strategy invoked
is the one whose configured cumulative-probability interval contains the
uniform random draw", reads the cumulative table in order and picks the
first entry whose cumulative probability strictly exceeds the draw. -/
def specPickStrategy : List (ℚ × MutationType) → ℚ → Option MutationType
  | [], _ => none
  | (cum, f) :: rest, r => if r < cum then some f else specPickStrategy rest r

/-- Models the per-flow dictionary comprehension of
`_calculate_delay_distribution_metric` (ga_operators.py lines 606-608):
a Python dict keyed by path cost, where a later insertion with an existing
key overwrites that key's value. -/
def dictUpsert (d : List (ℚ × ℚ)) (key v : ℚ) : List (ℚ × ℚ) :=
  if d.any (fun kv => decide (kv.1 = key)) then
    d.map (fun kv => if kv.1 = key then (key, v) else kv)
  else d ++ [(key, v)]

/-- The dict `{flow.get_path_cost(path_id): chromosome[path_id] for path_id
in flow.get_path_ids() if chromosome[path_id] > 0}` of ga_operators.py lines
606-608, built in path order. -/
def pathDelayData (f : FlowModel) (c : List ℚ) : List (ℚ × ℚ) :=
  (f.pathIds.zip f.pathCosts).foldl
    (fun d pc => if 0 < c.getD pc.1 0 then dictUpsert d pc.2 (c.getD pc.1 0) else d) []

/-- Python `min` over a list, defaulting to 0 on the empty list (the empty
case is unreachable where it is used). -/
def minListD : List ℚ → ℚ
  | [] => 0
  | a :: rest => rest.foldl min a

/-- The per-flow delay distribution value of ga_operators.py lines 610-625:
skip flows with no used path; multiplier `1 / ((path_delay - lowest) + 1)`
per dict item, weighted by the dict item's rate and normalised by the sum of
the dict values. -/
def flowDelayMetric (f : FlowModel) (c : List ℚ) : ℚ :=
  let pdd := pathDelayData f c
  if pdd.isEmpty then 0
  else
    let lowest := minListD f.pathCosts
    (pdd.map (fun kv => (1 / ((kv.1 - lowest) + 1)) * kv.2)).sum /
      (pdd.map (fun kv => kv.2)).sum

/-- Models `_calculate_delay_distribution_metric(chromosome)`
(ga_operators.py lines 577-627). -/
def calculate_delay_distribution_metric (flows : List FlowModel) (c : List ℚ) : ℚ :=
  (flows.map (fun f => flowDelayMetric f c)).sum

/-- Modelled from the spec (claim C8's formula): the sum over flows with at
least one path of non-zero rate of (sum over that flow's used paths of
rate times 1/(pathCost - minPathCost + 1)) divided by the flow's total
allocated rate. -/
def specDelayDistributionMetric (flows : List FlowModel) (c : List ℚ) : ℚ :=
  (flows.map (fun f =>
    let used := (f.pathIds.zip f.pathCosts).filter
      (fun pc => decide (0 < c.getD pc.1 0))
    if used.isEmpty then 0
    else
      let lowest := minListD f.pathCosts
      (used.map (fun pc => c.getD pc.1 0 * (1 / ((pc.2 - lowest) + 1)))).sum /
        (used.map (fun pc => c.getD pc.1 0)).sum)).sum

/-! Helper lemmas about lists, indices and sums. -/

theorem get_eq_getD (l : List ℚ) (i : ℕ) (hi : i < l.length) : l.get ⟨i, hi⟩ = l.getD i 0 := by
  rw [List.getD_eq_getElem _ _ hi]
  rfl

theorem getD_map_getD (g : ℕ → ℚ) (l : List ℕ) (i : ℕ) (hi : i < l.length) :
    (l.map g).getD i 0 = g (l.getD i 0) := by
  rw [List.getD_eq_getElem _ _ (by simpa using hi), List.getElem_map]
  congr 1
  rw [List.getD_eq_getElem _ _ hi]

theorem getD_map_div (l : List ℚ) (c : ℚ) (i : ℕ) (hi : i < l.length) :
    (l.map (fun v => v / c)).getD i 0 = l.getD i 0 / c := by
  rw [List.getD_eq_getElem _ _ (by simpa using hi), List.getElem_map,
    List.getD_eq_getElem _ _ hi]

theorem getD_map_range (n : ℕ) (g : ℕ → ℚ) (i : ℕ) (hi : i < n) :
    ((List.range n).map g).getD i 0 = g i := by
  rw [List.getD_eq_getElem _ _ (by simpa using hi)]
  simp

theorem getD_zero_of_le (l : List ℚ) (i : ℕ) (hi : l.length ≤ i) : l.getD i 0 = 0 := by
  rw [List.getD_eq_default]
  exact hi

theorem getD_nonneg_of_forall (l : List ℚ) (h : ∀ v ∈ l, 0 ≤ v) (i : ℕ) : 0 ≤ l.getD i 0 := by
  by_cases hi : i < l.length
  · rw [List.getD_eq_getElem _ _ hi]
    exact h _ (l.getElem_mem hi)
  · rw [getD_zero_of_le l i (by omega)]

theorem mem_nonneg_of_getD (l : List ℚ) (h : ∀ i, 0 ≤ l.getD i 0) :
    ∀ v ∈ l, 0 ≤ v := by
  intro v hv
  rw [List.mem_iff_getElem] at hv
  obtain ⟨i, hi, rfl⟩ := hv
  have := h i
  rwa [List.getD_eq_getElem _ _ hi] at this

theorem sum_range_getD (l : List ℚ) :
    ((List.range l.length).map (fun i => l.getD i 0)).sum = l.sum := by
  induction l with
  | nil => simp
  | cons a t ih =>
    have h1 : List.range (a :: t).length = 0 :: (List.range t.length).map Nat.succ := by
      rw [List.length_cons, List.range_succ_eq_map]
    rw [h1, List.map_cons, List.map_map, List.sum_cons]
    have h2 : ((List.range t.length).map ((fun i => (a :: t).getD i 0) ∘ Nat.succ)) =
        (List.range t.length).map (fun i => t.getD i 0) := by
      apply List.map_congr_left
      intro i _
      simp [Function.comp]
    rw [h2, ih]
    simp

theorem sum_map_sub_range (n : ℕ) (f g : ℕ → ℚ) :
    ((List.range n).map (fun i => f i - g i)).sum =
      ((List.range n).map f).sum - ((List.range n).map g).sum := by
  induction n with
  | zero => simp
  | succ m ih =>
    rw [List.range_succ]
    simp only [List.map_append, List.sum_append, List.map_cons, List.map_nil,
      List.sum_cons, List.sum_nil]
    rw [ih]
    ring

theorem sum_map_mul_right_range (n : ℕ) (f : ℕ → ℚ) (c : ℚ) :
    ((List.range n).map (fun i => f i * c)).sum = ((List.range n).map f).sum * c := by
  induction n with
  | zero => simp
  | succ m ih =>
    rw [List.range_succ]
    simp only [List.map_append, List.sum_append, List.map_cons, List.map_nil,
      List.sum_cons, List.sum_nil]
    rw [ih]
    ring

theorem sum_map_div_list (l : List ℚ) (c : ℚ) :
    (l.map (fun v => v / c)).sum = l.sum / c := by
  induction l with
  | nil => simp
  | cons a t ih =>
    simp only [List.map_cons, List.sum_cons, ih]
    ring

theorem map_indexOf_perm {n : ℕ} {perm : List ℕ} (h : perm.Perm (List.range n)) :
    ((List.range n).map (fun j => perm.indexOf j)).Perm (List.range n) := by
  have hlen : perm.length = n := by simpa using h.length_eq
  have hmem : ∀ j, j ∈ perm ↔ j < n := by
    intro j
    rw [h.mem_iff, List.mem_range]
  have hsub : ((List.range n).map (fun j => perm.indexOf j)) ⊆ List.range n := by
    intro i hi
    rw [List.mem_map] at hi
    obtain ⟨j, hj, rfl⟩ := hi
    rw [List.mem_range] at hj ⊢
    rw [← hlen]
    exact List.indexOf_lt_length.2 ((hmem j).2 hj)
  have hnodup : ((List.range n).map (fun j => perm.indexOf j)).Nodup := by
    apply List.Nodup.map_on _ (List.nodup_range n)
    intro j1 hj1 j2 hj2 heq
    rw [List.mem_range] at hj1 hj2
    have h1 : perm.indexOf j1 < perm.length := List.indexOf_lt_length.2 ((hmem j1).2 hj1)
    have h2 : perm.indexOf j2 < perm.length := List.indexOf_lt_length.2 ((hmem j2).2 hj2)
    have e1 : perm[perm.indexOf j1] = j1 := List.getElem_indexOf h1
    have e2 : perm[perm.indexOf j2] = j2 := List.getElem_indexOf h2
    rw [← e1, ← e2]
    congr 1
  have hlen2 : (List.range n).length ≤ ((List.range n).map (fun j => perm.indexOf j)).length := by
    simp
  exact (hnodup.subperm hsub).perm_of_length_le hlen2

theorem sum_map_getD_perm (xf : List ℚ) {n : ℕ} {perm : List ℕ}
    (h : perm.Perm (List.range n)) (hlen : xf.length = n) :
    ((List.range n).map (fun idx => xf.getD (perm.indexOf idx) 0)).sum = xf.sum := by
  have h1 : (List.range n).map (fun idx => xf.getD (perm.indexOf idx) 0) =
      ((List.range n).map (fun j => perm.indexOf j)).map (fun i => xf.getD i 0) := by
    rw [List.map_map]
    rfl
  rw [h1]
  have h2 := (map_indexOf_perm h).map (fun i => xf.getD i 0)
  rw [h2.sum_eq]
  rw [← hlen]
  exact sum_range_getD xf

/-! Invariants of the drawing loop: every drawn value stays inside its
feasibility window, so the running remainder can always be absorbed by the
values not yet visited. -/

theorem drawXs_bounds (z : ℚ) :
    ∀ (us ys : List ℚ) (xsum : ℚ),
      (∀ a ∈ ys, 0 ≤ a) →
      (∀ u ∈ us, 0 ≤ u ∧ u ≤ 1) →
      0 ≤ z - xsum →
      z - xsum ≤ ys.sum →
      us.length < ys.length →
      (drawXs z ys us xsum).length = us.length ∧
      List.Forall₂ (fun x a => 0 ≤ x ∧ x ≤ a) (drawXs z ys us xsum) (ys.take us.length) ∧
      0 ≤ z - (xsum + (drawXs z ys us xsum).sum) ∧
      z - (xsum + (drawXs z ys us xsum).sum) ≤ (ys.drop us.length).sum := by
  intro us
  induction us with
  | nil =>
    intro ys xsum _ _ h0 h1 _
    have hd : drawXs z ys [] xsum = [] := by cases ys <;> simp [drawXs]
    rw [hd]
    exact ⟨rfl, by simp, by simpa using h0, by simpa using h1⟩
  | cons u us ih =>
    intro ys xsum hys hus h0 h1 hlen
    cases ys with
    | nil => simp at hlen
    | cons yk ytl =>
      have hyk : 0 ≤ yk := hys yk (by simp)
      have hytl : ∀ a ∈ ytl, 0 ≤ a := fun a ha => hys a (by simp [ha])
      have hytlsum : 0 ≤ ytl.sum := List.sum_nonneg hytl
      have hu : 0 ≤ u ∧ u ≤ 1 := hus u (by simp)
      have hustl : ∀ v ∈ us, 0 ≤ v ∧ v ≤ 1 := fun v hv => hus v (by simp [hv])
      set lo := max 0 (z - xsum - ytl.sum) with hlo
      set hi := min yk (z - xsum) with hhi
      have hlohi : lo ≤ hi := by
        rw [hlo, hhi]
        apply max_le
        · exact le_min hyk h0
        · apply le_min
          · have : z - xsum ≤ yk + ytl.sum := by simpa using h1
            linarith
          · linarith
      set xk := lo + (hi - lo) * u with hxk
      have hxk_lo : lo ≤ xk := by
        rw [hxk]
        nlinarith [hu.1, hu.2]
      have hxk_hi : xk ≤ hi := by
        rw [hxk]
        nlinarith [hu.1, hu.2]
      have hxk0 : 0 ≤ xk := le_trans (le_max_left _ _) hxk_lo
      have hxkyk : xk ≤ yk := le_trans hxk_hi (min_le_left _ _)
      have hinv0 : 0 ≤ z - (xsum + xk) := by
        have : xk ≤ z - xsum := le_trans hxk_hi (min_le_right _ _)
        linarith
      have hinv1 : z - (xsum + xk) ≤ ytl.sum := by
        have : z - xsum - ytl.sum ≤ xk := le_trans (le_max_right _ _) hxk_lo
        linarith
      have hlen' : us.length < ytl.length := by simpa using hlen
      obtain ⟨ihlen, ihf, ih0, ih1⟩ := ih ytl (xsum + xk) hytl hustl hinv0 hinv1 hlen'
      have hstep : drawXs z (yk :: ytl) (u :: us) xsum =
          xk :: drawXs z ytl us (xsum + xk) := by
        simp only [drawXs]
      refine ⟨?_, ?_, ?_, ?_⟩
      · rw [hstep]; simp [ihlen]
      · rw [hstep]
        simp only [List.length_cons, List.take_succ_cons]
        exact List.Forall₂.cons ⟨hxk0, hxkyk⟩ ihf
      · rw [hstep]
        simp only [List.sum_cons]
        linarith [ih0]
      · rw [hstep]
        simp only [List.sum_cons, List.length_cons, List.drop_succ_cons]
        linarith [ih1]

theorem xFull_spec (z : ℚ) (y us : List ℚ)
    (hy : ∀ a ∈ y, 0 ≤ a) (hus : ∀ u ∈ us, 0 ≤ u ∧ u ≤ 1)
    (hz0 : 0 ≤ z) (hz1 : z ≤ y.sum) (hlen : us.length + 1 = y.length) :
    (xFull z y us).length = y.length ∧
    List.Forall₂ (fun x a => 0 ≤ x ∧ x ≤ a) (xFull z y us) y ∧
    (xFull z y us).sum = z := by
  obtain ⟨hL, hF, h0, h1⟩ := drawXs_bounds z us y 0 hy hus (by linarith)
    (by simpa using hz1) (by omega)
  have hdroplen : (y.drop us.length).length = 1 := by
    rw [List.length_drop]; omega
  obtain ⟨b, hb⟩ : ∃ b, y.drop us.length = [b] := by
    cases hd : y.drop us.length with
    | nil => rw [hd] at hdroplen; simp at hdroplen
    | cons c t =>
      rw [hd] at hdroplen
      simp at hdroplen
      exact ⟨c, by rw [hdroplen]⟩
  have hbsum : (y.drop us.length).sum = b := by rw [hb]; simp
  have hlast0 : 0 ≤ z - (drawXs z y us 0).sum := by simpa using h0
  have hlastb : z - (drawXs z y us 0).sum ≤ b := by
    rw [← hbsum]; simpa using h1
  constructor
  · simp [xFull, hL]; omega
  constructor
  · have hsplit : y = y.take us.length ++ [b] := by
      conv_lhs => rw [← List.take_append_drop us.length y]
      rw [hb]
    have hsing : List.Forall₂ (fun x a => 0 ≤ x ∧ x ≤ a)
        [z - (drawXs z y us 0).sum] [b] := by
      rw [List.forall₂_cons]
      exact ⟨⟨hlast0, hlastb⟩, by simp⟩
    have happ := List.rel_append hF hsing
    simp only at happ
    rw [← hsplit] at happ
    exact happ
  · simp [xFull]

/-! The central feasibility facts of the excess-removal pipeline. -/

theorem repairedList_spec (values : List ℚ) (excess : ℚ) (perm : List ℕ) (us : List ℚ)
    (hv : ∀ v ∈ values, 0 ≤ v) (hpos : 0 < values.sum)
    (he0 : 0 ≤ excess) (he1 : excess ≤ values.sum)
    (hperm : perm.Perm (List.range values.length))
    (hus : us.length + 1 = values.length)
    (huB : ∀ u ∈ us, 0 ≤ u ∧ u ≤ 1) :
    (repairedList values excess perm us).length = values.length ∧
    (∀ i, 0 ≤ (repairedList values excess perm us).getD i 0 ∧
      (repairedList values excess perm us).getD i 0 ≤ values.getD i 0) ∧
    (repairedList values excess perm us).sum = values.sum - excess := by
  have htne : values.sum ≠ 0 := ne_of_gt hpos
  set total := values.sum with htotal
  set n := values.length with hn
  set z := excess / total with hz
  set y0 := values.map (fun v => v / total) with hy0
  set y := perm.map (fun i => y0.getD i 0) with hy
  have hpermlen : perm.length = n := by simpa using hperm.length_eq
  have hy0len : y0.length = n := by simp [hy0, hn]
  have hylen : y.length = n := by simp [hy, hpermlen]
  have hy0nn : ∀ i, 0 ≤ y0.getD i 0 := by
    intro i
    apply getD_nonneg_of_forall
    intro v hvmem
    rw [hy0] at hvmem
    rw [List.mem_map] at hvmem
    obtain ⟨w, hw, rfl⟩ := hvmem
    exact div_nonneg (hv w hw) (le_of_lt hpos)
  have hynn : ∀ a ∈ y, 0 ≤ a := by
    intro a ha
    rw [hy, List.mem_map] at ha
    obtain ⟨i, _, rfl⟩ := ha
    exact hy0nn i
  have hy0sum : y0.sum = 1 := by
    rw [hy0, sum_map_div_list, ← htotal, div_self htne]
  have hysum : y.sum = 1 := by
    have h1 : y.Perm ((List.range n).map (fun i => y0.getD i 0)) :=
      hperm.map (fun i => y0.getD i 0)
    rw [h1.sum_eq, ← hy0len, sum_range_getD, hy0sum]
  have hz0 : 0 ≤ z := div_nonneg he0 (le_of_lt hpos)
  have hz1 : z ≤ y.sum := by
    rw [hysum, hz]
    exact (div_le_one hpos).2 he1
  have hlenxy : us.length + 1 = y.length := by rw [hylen]; exact hus
  obtain ⟨hxlen, hxF, hxsum⟩ := xFull_spec z y us hynn huB hz0 hz1 hlenxy
  set xf := xFull z y us with hxf
  have hxflen : xf.length = n := by rw [hxlen, hylen]
  have hxget := List.forall₂_iff_get.1 hxF
  have hsortedPt : ∀ idx, idx < n →
      0 ≤ xf.getD (perm.indexOf idx) 0 ∧
      xf.getD (perm.indexOf idx) 0 ≤ y0.getD idx 0 := by
    intro idx hidx
    have hmem : idx ∈ perm := by
      rw [hperm.mem_iff, List.mem_range]
      exact hidx
    have hilt : perm.indexOf idx < perm.length := List.indexOf_lt_length.2 hmem
    have hiltx : perm.indexOf idx < xf.length := by rw [hxflen, ← hpermlen]; exact hilt
    have hilty : perm.indexOf idx < y.length := by rw [hylen, ← hpermlen]; exact hilt
    have hrel := hxget.2 (perm.indexOf idx) hiltx hilty
    have hx1 : xf.get ⟨perm.indexOf idx, hiltx⟩ = xf.getD (perm.indexOf idx) 0 :=
      get_eq_getD xf _ hiltx
    have hy1 : y.get ⟨perm.indexOf idx, hilty⟩ = y.getD (perm.indexOf idx) 0 :=
      get_eq_getD y _ hilty
    have hy2 : y.getD (perm.indexOf idx) 0 = y0.getD (perm.getD (perm.indexOf idx) 0) 0 :=
      getD_map_getD (fun i => y0.getD i 0) perm _ hilt
    have hy3 : perm.getD (perm.indexOf idx) 0 = idx := by
      rw [List.getD_eq_getElem _ _ hilt]
      exact List.getElem_indexOf hilt
    constructor
    · rw [← hx1]
      exact hrel.1
    · calc xf.getD (perm.indexOf idx) 0 = xf.get ⟨perm.indexOf idx, hiltx⟩ := hx1.symm
        _ ≤ y.get ⟨perm.indexOf idx, hilty⟩ := hrel.2
        _ = y.getD (perm.indexOf idx) 0 := hy1
        _ = y0.getD (perm.getD (perm.indexOf idx) 0) 0 := hy2
        _ = y0.getD idx 0 := by rw [hy3]
  set sortedX := (List.range n).map (fun idx => xf.getD (perm.indexOf idx) 0) with hsx
  have hrl : repairedList values excess perm us =
      (List.range n).map (fun idx => values.getD idx 0 - sortedX.getD idx 0 * total) := rfl
  have hsxsum : sortedX.sum = z := by
    rw [hsx]
    rw [sum_map_getD_perm xf hperm hxflen]
    exact hxsum
  refine ⟨?_, ?_, ?_⟩
  · rw [hrl]; simp
  · intro i
    by_cases hi : i < n
    · rw [hrl, getD_map_range n _ i hi]
      have hsxi : sortedX.getD i 0 = xf.getD (perm.indexOf i) 0 :=
        getD_map_range n _ i hi
      obtain ⟨hs0, hs1⟩ := hsortedPt i hi
      rw [hsxi]
      have hy0i : y0.getD i 0 = values.getD i 0 / total :=
        getD_map_div values total i hi
      rw [hy0i] at hs1
      constructor
      · have hmul : xf.getD (perm.indexOf i) 0 * total ≤
            (values.getD i 0 / total) * total :=
          mul_le_mul_of_nonneg_right hs1 (le_of_lt hpos)
        rw [div_mul_cancel₀ _ htne] at hmul
        linarith
      · have hmul : 0 ≤ xf.getD (perm.indexOf i) 0 * total :=
          mul_nonneg hs0 (le_of_lt hpos)
        linarith
    · have h1 : (repairedList values excess perm us).length ≤ i := by
        rw [hrl]; simpa using (by omega : n ≤ i)
      have h2 : values.length ≤ i := by omega
      rw [getD_zero_of_le _ _ h1, getD_zero_of_le _ _ h2]
      exact ⟨le_refl 0, le_refl 0⟩
  · rw [hrl]
    rw [sum_map_sub_range n (fun idx => values.getD idx 0) (fun idx => sortedX.getD idx 0 * total)]
    rw [sum_map_mul_right_range n (fun idx => sortedX.getD idx 0) total]
    have e1 : ((List.range n).map (fun idx => values.getD idx 0)).sum = values.sum :=
      sum_range_getD values
    have hsx2 : (List.range n).map (fun idx => sortedX.getD idx 0) = sortedX := by
      rw [hsx]
      apply List.map_congr_left
      intro i hi
      rw [List.mem_range] at hi
      exact getD_map_range _ _ i hi
    rw [e1, hsx2, hsxsum]
    show values.sum - excess / total * total = values.sum - excess
    rw [div_mul_cancel₀ _ htne]

theorem clampRepairedValues_spec (zTol : ℚ) (hzT : 0 ≤ zTol) :
    ∀ l : List ℚ, (∀ v ∈ l, 0 ≤ v) →
      ∃ r, clampRepairedValues zTol l = .ok r ∧ r.length = l.length ∧
        (∀ i, 0 ≤ r.getD i 0 ∧ r.getD i 0 ≤ l.getD i 0) ∧
        l.sum - l.length * zTol ≤ r.sum ∧ r.sum ≤ l.sum := by
  intro l
  induction l with
  | nil =>
    intro _
    exact ⟨[], rfl, rfl, fun i => ⟨le_refl 0, le_refl 0⟩, by simp, by simp⟩
  | cons v rest ih =>
    intro hnn
    have hv0 : 0 ≤ v := hnn v (by simp)
    have hrest : ∀ w ∈ rest, 0 ≤ w := fun w hw => hnn w (by simp [hw])
    obtain ⟨r, hr, hrlen, hrpt, hrs1, hrs2⟩ := ih hrest
    by_cases hcl : |v| ≤ zTol
    · have hvle : v ≤ zTol := le_trans (le_abs_self v) hcl
      refine ⟨0 :: r, ?_, by simp [hrlen], ?_, ?_, ?_⟩
      · simp only [clampRepairedValues, if_pos hcl, hr]
      · intro i
        cases i with
        | zero => exact ⟨le_refl 0, hv0⟩
        | succ j => simpa using hrpt j
      · simp only [List.sum_cons, List.length_cons]
        push_cast
        linarith
      · simp only [List.sum_cons]
        linarith
    · have hnneg : ¬ (v < 0) := not_lt.2 hv0
      refine ⟨v :: r, ?_, by simp [hrlen], ?_, ?_, ?_⟩
      · simp only [clampRepairedValues, if_neg hcl, if_neg hnneg, hr]
      · intro i
        cases i with
        | zero => exact ⟨hv0, le_refl v⟩
        | succ j => simpa using hrpt j
      · simp only [List.sum_cons, List.length_cons]
        push_cast
        linarith
      · simp only [List.sum_cons]
        linarith

theorem clampRepairedValues_error (zTol : ℚ) :
    ∀ (l : List ℚ) (e : GaError), clampRepairedValues zTol l = .error e →
      e = .negativeValue := by
  intro l
  induction l with
  | nil => intro e h; simp [clampRepairedValues] at h
  | cons v rest ih =>
    intro e h
    simp only [clampRepairedValues] at h
    split_ifs at h
    · cases hrec : clampRepairedValues zTol rest with
      | ok r => rw [hrec] at h; simp at h
      | error e2 => rw [hrec] at h; simp at h; rw [← h]; exact ih e2 hrec
    · simp at h; exact h.symm
    · cases hrec : clampRepairedValues zTol rest with
      | ok r => rw [hrec] at h; simp at h
      | error e2 => rw [hrec] at h; simp at h; rw [← h]; exact ih e2 hrec

theorem remove_excess_ok_spec (zTol eps : ℚ) (values : List ℚ) (excess : ℚ)
    (perm : List ℕ) (us : List ℚ)
    (hv : ∀ v ∈ values, 0 ≤ v) (hpos : 0 < values.sum)
    (he0 : 0 ≤ excess) (he1 : excess ≤ values.sum)
    (hperm : perm.Perm (List.range values.length))
    (hus : us.length + 1 = values.length)
    (huB : ∀ u ∈ us, 0 ≤ u ∧ u ≤ 1)
    (hzT : 0 ≤ zTol)
    (hfit : (values.length : ℚ) * zTol < eps) :
    ∃ r, remove_excess zTol eps values excess perm us = .ok r ∧
      r.length = values.length ∧
      (∀ i, 0 ≤ r.getD i 0 ∧ r.getD i 0 ≤ values.getD i 0) ∧
      |r.sum - (values.sum - excess)| < eps := by
  obtain ⟨hrplen, hrppt, hrpsum⟩ :=
    repairedList_spec values excess perm us hv hpos he0 he1 hperm hus huB
  have hrpnn : ∀ v ∈ repairedList values excess perm us, 0 ≤ v :=
    mem_nonneg_of_getD _ (fun i => (hrppt i).1)
  obtain ⟨r, hcl, hrlen, hrpt, hrs1, hrs2⟩ :=
    clampRepairedValues_spec zTol hzT (repairedList values excess perm us) hrpnn
  have habs : |r.sum - (values.sum - excess)| < eps := by
    rw [abs_sub_lt_iff]
    rw [hrpsum] at hrs1 hrs2
    rw [hrplen] at hrs1
    constructor
    · linarith
    · have hnn : (0:ℚ) ≤ (values.length : ℚ) * zTol := by positivity
      linarith
  have h1 : ¬ (values.sum < excess) := not_lt.2 he1
  have h2 : ¬ (values.sum = 0) := ne_of_gt hpos
  refine ⟨r, ?_, by rw [hrlen, hrplen], ?_, habs⟩
  · simp only [remove_excess, if_neg h1, if_neg h2, hcl]
    rw [if_pos (le_of_lt habs)]
  · intro i
    exact ⟨(hrpt i).1, le_trans (hrpt i).2 (hrppt i).2⟩

/-! Claim theorems. -/

/-- Claim C1: for every vector of non-negative values with positive sum and
every excess with 0 <= excess <= sum, `remove_excess` returns a vector of
the same length with every entry in [0, values_i] and total within the
tolerance of sum(values) - excess, for every shuffle permutation and every
sequence of unit-interval uniform draws.  The tolerances are spec-modelled
parameters (modules/definitions.py is absent); the hypothesis
`length * zTol < eps` records that the clamp-to-zero tolerance is far below
the sum tolerance, as the spec's "small tolerance" wording requires. -/
theorem remove_excess_feasibility (zTol eps : ℚ) (values : List ℚ) (excess : ℚ)
    (perm : List ℕ) (us : List ℚ)
    (hv : ∀ v ∈ values, 0 ≤ v) (hpos : 0 < values.sum)
    (he0 : 0 ≤ excess) (he1 : excess ≤ values.sum)
    (hperm : perm.Perm (List.range values.length))
    (hus : us.length + 1 = values.length)
    (huB : ∀ u ∈ us, 0 ≤ u ∧ u ≤ 1)
    (hzT : 0 ≤ zTol)
    (hfit : (values.length : ℚ) * zTol < eps) :
    ∃ r, remove_excess zTol eps values excess perm us = .ok r ∧
      r.length = values.length ∧
      (∀ i, 0 ≤ r.getD i 0 ∧ r.getD i 0 ≤ values.getD i 0) ∧
      |r.sum - (values.sum - excess)| < eps :=
  remove_excess_ok_spec zTol eps values excess perm us hv hpos he0 he1 hperm hus huB hzT hfit

/-- Witness for C1 at the spec's own scenario `remove_excess([3,1,2], 5)`. -/
theorem remove_excess_feasibility_witness :
    ∃ r, remove_excess (1/1000000000) (1/1000000) [3, 1, 2] 5 [2, 0, 1] [1/2, 1/2] = .ok r ∧
      r.length = ([3, 1, 2] : List ℚ).length ∧
      (∀ i, 0 ≤ r.getD i 0 ∧ r.getD i 0 ≤ ([3, 1, 2] : List ℚ).getD i 0) ∧
      |r.sum - (([3, 1, 2] : List ℚ).sum - 5)| < 1/1000000 :=
  remove_excess_feasibility (1/1000000000) (1/1000000) [3, 1, 2] 5 [2, 0, 1] [1/2, 1/2]
    (by intro v hv; simp at hv; rcases hv with h | h | h <;> rw [h] <;> norm_num)
    (by norm_num) (by norm_num) (by norm_num) (by decide) rfl
    (by intro u hu; simp at hu; subst hu; norm_num)
    (by norm_num) (by norm_num)

/-- Claim C2 counterexample: the claim requires `remove_excess([5,5,5], 15)`
to raise the fatal excess-exceeds-total error, but excess equals the total
there, the guard at ga_operators.py line 809 is strict, and the call returns
normally with the all-zero vector. -/
theorem remove_excess_at_total_returns :
    remove_excess (1/1000000000) (1/1000000) [5, 5, 5] 15 [0, 1, 2] [0, 0] =
      .ok [0, 0, 0] := by
  norm_num [remove_excess, repairedList, xFull, drawXs, clampRepairedValues,
    List.range_succ, abs_le]

/-- Claim C2 as amended: `remove_excess` raises the excess-exceeds-total
error exactly when the excess is strictly greater than the sum of the
values; excess equal to the sum is allowed and does not raise this error. -/
theorem remove_excess_excess_error_iff (zTol eps : ℚ) (values : List ℚ) (excess : ℚ)
    (perm : List ℕ) (us : List ℚ) :
    remove_excess zTol eps values excess perm us = .error .excessExceedsTotal ↔
      values.sum < excess := by
  constructor
  · intro h
    by_contra hc
    simp only [remove_excess, if_neg hc] at h
    split_ifs at h with h0
    · simp at h
    · cases hcl : clampRepairedValues zTol (repairedList values excess perm us) with
      | ok r =>
        rw [hcl] at h
        dsimp only at h
        split_ifs at h <;> simp at h
      | error e2 =>
        rw [hcl] at h
        simp at h
        have he := clampRepairedValues_error zTol _ _ hcl
        rw [he] at h
        cases h
  · intro h
    simp only [remove_excess, if_pos h]

/-- Claim C9: on the all-zero vector with excess 0, which satisfies the
spec's stated precondition (non-negative values, sum >= excess >= 0), the
strict guard does not fire and the normalisation `excess / total` divides by
zero, so `remove_excess` neither returns a result nor raises the documented
excess-exceeds-total error: positivity of the sum is an undocumented
precondition. -/
theorem remove_excess_zero_total_division_error (zTol eps : ℚ)
    (perm : List ℕ) (us : List ℚ) :
    remove_excess zTol eps [0, 0, 0] 0 perm us = .error .divisionByZero ∧
    remove_excess zTol eps [0, 0, 0] 0 perm us ≠ .error .excessExceedsTotal ∧
    ∀ r : List ℚ, remove_excess zTol eps [0, 0, 0] 0 perm us ≠ .ok r := by
  have h : remove_excess zTol eps [0, 0, 0] 0 perm us = .error .divisionByZero := by
    simp [remove_excess]
  refine ⟨h, ?_, ?_⟩
  · rw [h]
    intro hc
    simp at hc
  · intro r
    rw [h]
    intro hc
    simp at hc

theorem getD_set_ne (c : List ℚ) (q : ℕ) (v : ℚ) (p : ℕ) (hne : q ≠ p) :
    (c.set q v).getD p 0 = c.getD p 0 := by
  by_cases hp : p < c.length
  · rw [List.getD_eq_getElem _ _ (by simpa using hp), List.getD_eq_getElem _ _ hp]
    exact List.getElem_set_ne hne _
  · rw [getD_zero_of_le _ _ (by simpa using not_lt.1 hp),
      getD_zero_of_le _ _ (not_lt.1 hp)]

theorem getD_set_self (c : List ℚ) (q : ℕ) (v : ℚ) (hq : q < c.length) :
    (c.set q v).getD q 0 = v := by
  rw [List.getD_eq_getElem _ _ (by simpa using hq)]
  exact List.getElem_set_self (by simpa using hq)

theorem writeBack_length (ids : List ℕ) :
    ∀ (vals : List ℚ) (c : List ℚ), (writeBack c ids vals).length = c.length := by
  induction ids with
  | nil => intro vals c; simp [writeBack]
  | cons q qt ih =>
    intro vals c
    cases vals with
    | nil => simp [writeBack]
    | cons v vt =>
      have h1 : writeBack c (q :: qt) (v :: vt) = writeBack (c.set q v) qt vt := rfl
      rw [h1, ih vt (c.set q v)]
      simp

theorem writeBack_getD_not_mem (ids : List ℕ) :
    ∀ (vals : List ℚ) (c : List ℚ) (p : ℕ), p ∉ ids →
      (writeBack c ids vals).getD p 0 = c.getD p 0 := by
  induction ids with
  | nil => intro vals c p _; simp [writeBack]
  | cons q qt ih =>
    intro vals c p hp
    cases vals with
    | nil => simp [writeBack]
    | cons v vt =>
      have h1 : writeBack c (q :: qt) (v :: vt) = writeBack (c.set q v) qt vt := rfl
      rw [h1, ih vt (c.set q v) p (by intro hmem; exact hp (by simp [hmem]))]
      exact getD_set_ne c q v p (by intro he; exact hp (by simp [he]))

theorem writeBack_subvec (ids : List ℕ) :
    ∀ (vals : List ℚ) (c : List ℚ), ids.Nodup → vals.length = ids.length →
      (∀ q ∈ ids, q < c.length) →
      ids.map (fun p => (writeBack c ids vals).getD p 0) = vals := by
  induction ids with
  | nil =>
    intro vals c _ hlen _
    rw [List.length_nil, List.length_eq_zero] at hlen
    simp [hlen]
  | cons q qt ih =>
    intro vals c hnd hlen hbnd
    cases vals with
    | nil => simp at hlen
    | cons v vt =>
      have h1 : writeBack c (q :: qt) (v :: vt) = writeBack (c.set q v) qt vt := rfl
      have hqnot : q ∉ qt := (List.nodup_cons.1 hnd).1
      have hndt : qt.Nodup := (List.nodup_cons.1 hnd).2
      have hlent : vt.length = qt.length := by simpa using hlen
      have hbndt : ∀ p ∈ qt, p < (c.set q v).length := by
        intro p hp
        simpa using hbnd p (by simp [hp])
      rw [List.map_cons, h1]
      congr 1
      · rw [writeBack_getD_not_mem qt vt (c.set q v) q hqnot]
        exact getD_set_self c q v (hbnd q (by simp))
      · exact ih vt (c.set q v) hndt hlent hbndt


theorem clampRepairedValues_cons_ok (zTol v : ℚ) (rest r : List ℚ)
    (h : clampRepairedValues zTol (v :: rest) = .ok r) :
    ∃ r0, clampRepairedValues zTol rest = .ok r0 ∧
      ((|v| ≤ zTol ∧ r = 0 :: r0) ∨ (¬ |v| ≤ zTol ∧ 0 ≤ v ∧ r = v :: r0)) := by
  simp only [clampRepairedValues] at h
  by_cases hcl : |v| ≤ zTol
  · rw [if_pos hcl] at h
    cases hrec : clampRepairedValues zTol rest with
    | error e => rw [hrec] at h; exact absurd h (by simp)
    | ok r0 =>
      rw [hrec] at h
      dsimp only at h
      injection h with h2
      exact ⟨r0, rfl, Or.inl ⟨hcl, h2.symm⟩⟩
  · rw [if_neg hcl] at h
    by_cases hneg : v < 0
    · rw [if_pos hneg] at h
      exact absurd h (by simp)
    · rw [if_neg hneg] at h
      cases hrec : clampRepairedValues zTol rest with
      | error e => rw [hrec] at h; exact absurd h (by simp)
      | ok r0 =>
        rw [hrec] at h
        dsimp only at h
        injection h with h2
        exact ⟨r0, rfl, Or.inr ⟨hcl, not_lt.1 hneg, h2.symm⟩⟩

theorem clampRepairedValues_nil_ok (zTol : ℚ) (r : List ℚ)
    (h : clampRepairedValues zTol [] = .ok r) : r = [] := by
  simp only [clampRepairedValues] at h
  injection h with h2
  exact h2.symm

theorem clampRepairedValues_ok_length (zTol : ℚ) :
    ∀ (l r : List ℚ), clampRepairedValues zTol l = .ok r → r.length = l.length := by
  intro l
  induction l with
  | nil =>
    intro r h
    rw [clampRepairedValues_nil_ok zTol r h]
  | cons v rest ih =>
    intro r h
    obtain ⟨r0, hrec, hcase⟩ := clampRepairedValues_cons_ok zTol v rest r h
    rcases hcase with ⟨_, hr⟩ | ⟨_, _, hr⟩ <;>
      rw [hr] <;> simp [ih r0 hrec]

theorem clampRepairedValues_ok_nonneg (zTol : ℚ) :
    ∀ (l r : List ℚ), clampRepairedValues zTol l = .ok r → ∀ v ∈ r, 0 ≤ v := by
  intro l
  induction l with
  | nil =>
    intro r h
    rw [clampRepairedValues_nil_ok zTol r h]
    simp
  | cons v rest ih =>
    intro r h
    obtain ⟨r0, hrec, hcase⟩ := clampRepairedValues_cons_ok zTol v rest r h
    rcases hcase with ⟨_, hr⟩ | ⟨_, hv0, hr⟩ <;> rw [hr]
    · intro w hw
      rcases List.mem_cons.1 hw with hw0 | hw1
      · rw [hw0]
      · exact ih r0 hrec w hw1
    · intro w hw
      rcases List.mem_cons.1 hw with hw0 | hw1
      · rw [hw0]; exact hv0
      · exact ih r0 hrec w hw1

theorem remove_excess_ok_inversion (zTol eps : ℚ) (values : List ℚ) (excess : ℚ)
    (perm : List ℕ) (us : List ℚ) (r : List ℚ)
    (hok : remove_excess zTol eps values excess perm us = .ok r) :
    ¬ values.sum < excess ∧ values.sum ≠ 0 ∧
    clampRepairedValues zTol (repairedList values excess perm us) = .ok r ∧
    |r.sum - (values.sum - excess)| ≤ eps := by
  by_cases h1 : values.sum < excess
  · simp [remove_excess, if_pos h1] at hok
  by_cases h2 : values.sum = 0
  · simp [remove_excess, if_neg h1, if_pos h2] at hok
  simp only [remove_excess, if_neg h1, if_neg h2] at hok
  cases hcl : clampRepairedValues zTol (repairedList values excess perm us) with
  | error e => rw [hcl] at hok; exact absurd hok (by simp)
  | ok r0 =>
    rw [hcl] at hok
    dsimp only at hok
    split_ifs at hok with hcond
    injection hok with h3
    subst h3
    exact ⟨h1, h2, rfl, hcond⟩

theorem repairedList_length (values : List ℚ) (excess : ℚ) (perm : List ℕ) (us : List ℚ) :
    (repairedList values excess perm us).length = values.length := by
  simp [repairedList]

theorem remove_excess_ok_length (zTol eps : ℚ) (values : List ℚ) (excess : ℚ)
    (perm : List ℕ) (us : List ℚ) (r : List ℚ)
    (hok : remove_excess zTol eps values excess perm us = .ok r) :
    r.length = values.length := by
  obtain ⟨_, _, hcl, _⟩ := remove_excess_ok_inversion zTol eps values excess perm us r hok
  rw [clampRepairedValues_ok_length zTol _ r hcl, repairedList_length]

theorem remove_excess_ok_sum (zTol eps : ℚ) (values : List ℚ) (excess : ℚ)
    (perm : List ℕ) (us : List ℚ) (r : List ℚ)
    (hok : remove_excess zTol eps values excess perm us = .ok r) :
    |r.sum - (values.sum - excess)| ≤ eps :=
  (remove_excess_ok_inversion zTol eps values excess perm us r hok).2.2.2

theorem validateFlowAux_frame (zTol eps : ℚ) (rand : ℕ → List ℕ × List ℚ) :
    ∀ (flows : List FlowModel) (i : ℕ) (c c' : List ℚ),
      validateFlowAux zTol eps rand flows i c = .ok c' →
      ∀ p, (∀ f ∈ flows, p ∉ f.pathIds) → c'.getD p 0 = c.getD p 0 := by
  intro flows
  induction flows with
  | nil =>
    intro i c c' hok p _
    simp only [validateFlowAux] at hok
    injection hok with h2
    rw [h2]
  | cons f rest ih =>
    intro i c c' hok p hp
    simp only [validateFlowAux] at hok
    by_cases hexc : 0 < (f.pathIds.map (fun q => c.getD q 0)).sum - f.requestedRate
    · rw [if_pos hexc] at hok
      cases hre : remove_excess zTol eps (f.pathIds.map (fun q => c.getD q 0))
          ((f.pathIds.map (fun q => c.getD q 0)).sum - f.requestedRate)
          (rand i).1 (rand i).2 with
      | error e => rw [hre] at hok; exact absurd hok (by simp)
      | ok dpp2 =>
        rw [hre] at hok
        dsimp only at hok
        have h1 := ih (i + 1) (writeBack c f.pathIds dpp2) c' hok p
          (fun g hg => hp g (by simp [hg]))
        rw [h1, writeBack_getD_not_mem f.pathIds dpp2 c p (hp f (by simp))]
    · rw [if_neg hexc] at hok
      exact ih (i + 1) c c' hok p (fun g hg => hp g (by simp [hg]))

theorem validateFlowAux_spec (zTol eps : ℚ) (rand : ℕ → List ℕ × List ℚ) (heps : 0 ≤ eps) :
    ∀ (flows : List FlowModel) (i : ℕ) (c c' : List ℚ),
      FlowsDisjoint flows →
      (∀ f ∈ flows, f.pathIds.Nodup) →
      (∀ f ∈ flows, ∀ p ∈ f.pathIds, p < c.length) →
      validateFlowAux zTol eps rand flows i c = .ok c' →
      ∀ f ∈ flows,
        (f.pathIds.map (fun p => c'.getD p 0)).sum ≤ f.requestedRate + eps ∧
        ((f.pathIds.map (fun p => c.getD p 0)).sum ≤ f.requestedRate →
          ∀ p ∈ f.pathIds, c'.getD p 0 = c.getD p 0) := by
  intro flows
  induction flows with
  | nil =>
    intro i c c' _ _ _ _ f hf
    exact absurd hf (by simp)
  | cons f rest ih =>
    intro i c c' hdisj hnd hbnd hok g hg
    have hdisjhead : ∀ h ∈ rest, ∀ p ∈ f.pathIds, p ∉ h.pathIds :=
      (List.pairwise_cons.1 hdisj).1
    have hdisjt : FlowsDisjoint rest := (List.pairwise_cons.1 hdisj).2
    simp only [validateFlowAux] at hok
    by_cases hexc : 0 < (f.pathIds.map (fun q => c.getD q 0)).sum - f.requestedRate
    · rw [if_pos hexc] at hok
      cases hre : remove_excess zTol eps (f.pathIds.map (fun q => c.getD q 0))
          ((f.pathIds.map (fun q => c.getD q 0)).sum - f.requestedRate)
          (rand i).1 (rand i).2 with
      | error e => rw [hre] at hok; exact absurd hok (by simp)
      | ok dpp2 =>
        rw [hre] at hok
        dsimp only at hok
        have hlen2 : dpp2.length = f.pathIds.length := by
          rw [remove_excess_ok_length _ _ _ _ _ _ _ hre]
          simp
        have hsubv : f.pathIds.map
            (fun p => (writeBack c f.pathIds dpp2).getD p 0) = dpp2 :=
          writeBack_subvec f.pathIds dpp2 c (hnd f (by simp)) hlen2
            (fun q hq => hbnd f (by simp) q hq)
        have hbnd2 : ∀ h ∈ rest, ∀ p ∈ h.pathIds, p < (writeBack c f.pathIds dpp2).length := by
          intro h hh p hp
          rw [writeBack_length]
          exact hbnd h (by simp [hh]) p hp
        rcases List.mem_cons.1 hg with rfl | hgrest
        · constructor
          · have hfix : ∀ p ∈ g.pathIds, c'.getD p 0 =
                (writeBack c g.pathIds dpp2).getD p 0 := by
              intro p hp
              exact validateFlowAux_frame zTol eps rand rest (i + 1) _ c' hok p
                (fun h hh => hdisjhead h hh p hp)
            have hmap : g.pathIds.map (fun p => c'.getD p 0) = dpp2 := by
              rw [← hsubv]
              exact List.map_congr_left hfix
            rw [hmap]
            have hsum := remove_excess_ok_sum _ _ _ _ _ _ _ hre
            rw [abs_le] at hsum
            have := hsum.2
            linarith [this]
          · intro hpre
            exact absurd hpre (by linarith)
        · have hres := ih (i + 1) (writeBack c f.pathIds dpp2) c' hdisjt
            (fun h hh => hnd h (by simp [hh])) hbnd2 hok g hgrest
          constructor
          · exact hres.1
          · intro hpre p hp
            have hnotf : ∀ p ∈ g.pathIds, p ∉ f.pathIds := by
              intro q hq hqf
              exact hdisjhead g hgrest q hqf hq
            have hsame : ∀ q ∈ g.pathIds,
                (writeBack c f.pathIds dpp2).getD q 0 = c.getD q 0 := by
              intro q hq
              exact writeBack_getD_not_mem f.pathIds dpp2 c q (hnotf q hq)
            have hpre2 : (g.pathIds.map
                (fun q => (writeBack c f.pathIds dpp2).getD q 0)).sum ≤ g.requestedRate := by
              rw [List.map_congr_left hsame]
              exact hpre
            rw [hres.2 hpre2 p hp, hsame p hp]
    · rw [if_neg hexc] at hok
      rcases List.mem_cons.1 hg with rfl | hgrest
      · have hfix : ∀ p ∈ g.pathIds, c'.getD p 0 = c.getD p 0 := by
          intro p hp
          exact validateFlowAux_frame zTol eps rand rest (i + 1) _ c' hok p
            (fun h hh => hdisjhead h hh p hp)
        constructor
        · rw [List.map_congr_left hfix]
          have : (g.pathIds.map (fun q => c.getD q 0)).sum ≤ g.requestedRate := by
            linarith [not_lt.1 hexc]
          linarith
        · intro _ p hp
          exact hfix p hp
      · exact ih (i + 1) c c' hdisjt (fun h hh => hnd h (by simp [hh]))
          (fun h hh p hp => hbnd h (by simp [hh]) p hp) hok g hgrest

/-- Claim C4: whenever flow-rate repair (`_validate_flow_constraint`)
returns, every flow's allocated sum over its own paths is at most its
requested rate plus the tolerance, and a flow whose sum already satisfied
the bound keeps all its entries unchanged. -/
theorem validate_flow_constraint_bounds (zTol eps : ℚ) (flows : List FlowModel)
    (rand : ℕ → List ℕ × List ℚ) (c c' : List ℚ)
    (hdisj : FlowsDisjoint flows)
    (hnd : ∀ f ∈ flows, f.pathIds.Nodup)
    (hbnd : ∀ f ∈ flows, ∀ p ∈ f.pathIds, p < c.length)
    (heps : 0 ≤ eps)
    (hok : validate_flow_constraint zTol eps flows rand c = .ok c') :
    ∀ f ∈ flows,
      (f.pathIds.map (fun p => c'.getD p 0)).sum ≤ f.requestedRate + eps ∧
      ((f.pathIds.map (fun p => c.getD p 0)).sum ≤ f.requestedRate →
        ∀ p ∈ f.pathIds, c'.getD p 0 = c.getD p 0) :=
  validateFlowAux_spec zTol eps rand heps flows 0 c c' hdisj hnd hbnd hok

/-- Witness for C4 on a two-flow topology: the first flow is allocated 13 of
a requested 10 and is repaired to within tolerance of 10, and the second
flow, already under its rate, keeps its entry at path 2. -/
theorem validate_flow_constraint_bounds_witness :
    ((FlowModel.mk [0, 1] [1, 1] 10).pathIds.map
        (fun p => ([8, 2, 3] : List ℚ).getD p 0)).sum ≤
      (FlowModel.mk [0, 1] [1, 1] 10).requestedRate + 1/1000000 ∧
    ([8, 2, 3] : List ℚ).getD 2 0 = ([8, 5, 3] : List ℚ).getD 2 0 :=
  ⟨(validate_flow_constraint_bounds (1/1000000000) (1/1000000)
    [FlowModel.mk [0, 1] [1, 1] 10, FlowModel.mk [2] [1] 5]
    (fun _ => ([0, 1], [0])) [8, 5, 3] [8, 2, 3]
    (by unfold FlowsDisjoint; decide) (by decide) (by decide) (by norm_num)
    (by norm_num [validate_flow_constraint, validateFlowAux, remove_excess,
      repairedList, xFull, drawXs, clampRepairedValues, writeBack,
      List.range_succ, abs_le])
    (FlowModel.mk [0, 1] [1, 1] 10) (by simp)).1,
   (validate_flow_constraint_bounds (1/1000000000) (1/1000000)
    [FlowModel.mk [0, 1] [1, 1] 10, FlowModel.mk [2] [1] 5]
    (fun _ => ([0, 1], [0])) [8, 5, 3] [8, 2, 3]
    (by unfold FlowsDisjoint; decide) (by decide) (by decide) (by norm_num)
    (by norm_num [validate_flow_constraint, validateFlowAux, remove_excess,
      repairedList, xFull, drawXs, clampRepairedValues, writeBack,
      List.range_succ, abs_le])
    (FlowModel.mk [2] [1] 5) (by simp)).2 (by norm_num) 2 (by simp)⟩

/-- Claim C10: flow-rate repair only modifies the entries of flows whose
allocated sum strictly exceeds their requested rate; every flow whose sum
over its paths is within its requested rate has each of its chromosome
entries unchanged by the call. -/
theorem validate_flow_constraint_frame (zTol eps : ℚ) (flows : List FlowModel)
    (rand : ℕ → List ℕ × List ℚ) (c c' : List ℚ)
    (hdisj : FlowsDisjoint flows)
    (hnd : ∀ f ∈ flows, f.pathIds.Nodup)
    (hbnd : ∀ f ∈ flows, ∀ p ∈ f.pathIds, p < c.length)
    (heps : 0 ≤ eps)
    (hok : validate_flow_constraint zTol eps flows rand c = .ok c') :
    ∀ f ∈ flows, (f.pathIds.map (fun p => c.getD p 0)).sum ≤ f.requestedRate →
      ∀ p ∈ f.pathIds, c'.getD p 0 = c.getD p 0 :=
  fun f hf =>
    (validateFlowAux_spec zTol eps rand heps flows 0 c c' hdisj hnd hbnd hok f hf).2

/-- Witness for C10: in the same two-flow scenario the satisfied second flow
keeps its entry at path 2 equal to 3. -/
theorem validate_flow_constraint_frame_witness :
    ([8, 2, 3] : List ℚ).getD 2 0 = ([8, 5, 3] : List ℚ).getD 2 0 :=
  validate_flow_constraint_frame (1/1000000000) (1/1000000)
    [FlowModel.mk [0, 1] [1, 1] 10, FlowModel.mk [2] [1] 5]
    (fun _ => ([0, 1], [0])) [8, 5, 3] [8, 2, 3]
    (by unfold FlowsDisjoint; decide) (by decide) (by decide) (by norm_num)
    (by norm_num [validate_flow_constraint, validateFlowAux, remove_excess,
      repairedList, xFull, drawXs, clampRepairedValues, writeBack,
      List.range_succ, abs_le])
    (FlowModel.mk [2] [1] 5) (by simp) (by norm_num) 2 (by simp)

theorem scanLinks_noViolation (net : NetModel) (zTol eps : ℚ) (c : List ℚ)
    (perm : List ℕ) (us : List ℚ) :
    ∀ order : List ℕ, scanLinks net zTol eps c order perm us = .noViolation →
      ∀ l ∈ order, linkUsage net c l ≤ capacityOf net l := by
  intro order
  induction order with
  | nil => intro _ l hl; exact absurd hl (by simp)
  | cons l0 rest ih =>
    intro hscan l hl
    simp only [scanLinks] at hscan
    by_cases hviol : capacityOf net l0 < linkUsage net c l0
    · rw [if_pos hviol] at hscan
      cases hre : repairLink net zTol eps c l0 perm us with
      | error e => rw [hre] at hscan; exact absurd hscan (by simp)
      | ok c2 => rw [hre] at hscan; exact absurd hscan (by simp)
    · rw [if_neg hviol] at hscan
      rcases List.mem_cons.1 hl with rfl | hlr
      · exact not_lt.1 hviol
      · exact ih hscan l hlr

theorem capacityOf_eq (net : NetModel) (hnodup : (net.links.map LinkModel.id).Nodup) :
    ∀ L ∈ net.links, capacityOf net L.id = L.capacity := by
  have h : ∀ links : List LinkModel, (links.map LinkModel.id).Nodup →
      ∀ L ∈ links, ((links.find? (fun K => K.id == L.id)).map LinkModel.capacity).getD 0 =
        L.capacity := by
    intro links
    induction links with
    | nil => intro _ L hL; exact absurd hL (by simp)
    | cons K rest ih =>
      intro hnd L hL
      rw [List.map_cons] at hnd
      have hnd2 := List.nodup_cons.1 hnd
      by_cases hid : K.id = L.id
      · have hfind : (K :: rest).find? (fun J => J.id == L.id) = some K := by
          rw [List.find?_cons_of_pos]
          simp [hid]
        rw [hfind]
        rcases List.mem_cons.1 hL with rfl | hLr
        · simp
        · exfalso
          have : L.id ∈ rest.map LinkModel.id := List.mem_map_of_mem LinkModel.id hLr
          rw [← hid] at this
          exact hnd2.1 this
      · have hfind : (K :: rest).find? (fun J => J.id == L.id) =
            rest.find? (fun J => J.id == L.id) := by
          rw [List.find?_cons_of_neg]
          simp [hid]
        rw [hfind]
        rcases List.mem_cons.1 hL with rfl | hLr
        · exact absurd rfl hid
        · exact ih hnd2.2 L hLr
  intro L hL
  exact h net.links hnodup L hL

/-- Claim C3: whenever link-capacity repair returns normally, every link's
realized usage, the matrix column sum plus 0.0458 per unit of ACK-path rate
on the link, is at most the link's capacity plus the tolerance.  The last
scan before returning visits every link (the order oracle covers all link
ids, as `random.sample(keys, k=len(keys))` does) and finds no violation. -/
theorem validate_link_capacity_constraint_post (net : NetModel) (zTol eps : ℚ)
    (rand : ℕ → List ℕ × List ℕ × List ℚ)
    (hcov : ∀ i, ∀ L ∈ net.links, L.id ∈ (rand i).1)
    (hnodup : (net.links.map LinkModel.id).Nodup)
    (heps : 0 ≤ eps) :
    ∀ (fuel : ℕ) (c c' : List ℚ),
      validate_link_capacity_constraint net zTol eps rand fuel c = .ok c' →
      ∀ L ∈ net.links, linkUsage net c' L.id ≤ L.capacity + eps := by
  intro fuel
  induction fuel with
  | zero =>
    intro c c' hok
    simp [validate_link_capacity_constraint] at hok
  | succ m ih =>
    intro c c' hok L hL
    simp only [validate_link_capacity_constraint] at hok
    cases hscan : scanLinks net zTol eps c (rand m).1 (rand m).2.1 (rand m).2.2 with
    | noViolation =>
      rw [hscan] at hok
      injection hok with h2
      subst h2
      have := scanLinks_noViolation net zTol eps c (rand m).2.1 (rand m).2.2
        (rand m).1 hscan L.id (hcov m L hL)
      rw [capacityOf_eq net hnodup L hL] at this
      linarith
    | failed e => rw [hscan] at hok; exact absurd hok (by simp)
    | repaired c2 =>
      rw [hscan] at hok
      exact ih c2 c' hok L hL

/-- Witness for C3 on a one-link network of capacity 10 carrying two paths
allocated 8 and 5: the loop repairs the link to usage 10 and the bound
holds on the returned chromosome [8, 2]. -/
theorem validate_link_capacity_constraint_post_witness :
    linkUsage (NetModel.mk [LinkModel.mk 0 10] (fun _ l => if l = 0 then 1 else 0)
        (fun _ => [])) [8, 2] (LinkModel.mk 0 10).id ≤
      (LinkModel.mk 0 10).capacity + 1/1000000 :=
  validate_link_capacity_constraint_post
    (NetModel.mk [LinkModel.mk 0 10] (fun _ l => if l = 0 then 1 else 0) (fun _ => []))
    (1/1000000000) (1/1000000) (fun _ => ([0], [0, 1], [0]))
    (fun _ => (by decide : ∀ L ∈ [LinkModel.mk 0 10], L.id ∈ [0]))
    (by decide) (by norm_num) 2 [8, 5] [8, 2]
    (by norm_num [validate_link_capacity_constraint, scanLinks, repairLink,
      linkUsage, linkColumn, capacityOf, remove_excess, repairedList, xFull,
      drawXs, clampRepairedValues, List.range_succ, List.find?, abs_le])
    (LinkModel.mk 0 10) (by simp)

theorem sum_map_ite_filter (pred : ℕ → Bool) (g : ℕ → ℚ) :
    ∀ l : List ℕ,
      (l.map (fun p => if pred p then g p else 0)).sum = ((l.filter pred).map g).sum := by
  intro l
  induction l with
  | nil => simp
  | cons a t ih =>
    by_cases ha : pred a
    · rw [List.filter_cons_of_pos ha]
      simp only [List.map_cons, List.sum_cons, if_pos ha, ih]
    · rw [List.filter_cons_of_neg (by simpa using ha)]
      simp only [List.map_cons, List.sum_cons, if_neg ha, ih]
      ring

theorem sum_filter_le (pred : ℕ → Bool) (g : ℕ → ℚ) :
    ∀ l : List ℕ, (∀ i ∈ l, 0 ≤ g i) →
      ((l.filter pred).map g).sum ≤ (l.map g).sum := by
  intro l
  induction l with
  | nil => intro _; simp
  | cons a t ih =>
    intro hnn
    have ha0 : 0 ≤ g a := hnn a (by simp)
    have iht := ih (fun i hi => hnn i (by simp [hi]))
    by_cases ha : pred a
    · rw [List.filter_cons_of_pos ha]
      simp only [List.map_cons, List.sum_cons]
      linarith
    · rw [List.filter_cons_of_neg (by simpa using ha)]
      simp only [List.map_cons, List.sum_cons]
      linarith

theorem setAll_length (g : ℕ → ℚ) :
    ∀ (ids : List ℕ) (c : List ℚ),
      (ids.foldl (fun ch q => ch.set q (g q)) c).length = c.length := by
  intro ids
  induction ids with
  | nil => intro c; rfl
  | cons q qt ih =>
    intro c
    have h1 : (q :: qt).foldl (fun ch p => ch.set p (g p)) c =
        qt.foldl (fun ch p => ch.set p (g p)) (c.set q (g q)) := rfl
    rw [h1, ih]
    simp

theorem setAll_getD (g : ℕ → ℚ) :
    ∀ (ids : List ℕ) (c : List ℚ) (p : ℕ), ids.Nodup → (∀ q ∈ ids, q < c.length) →
      (ids.foldl (fun ch q => ch.set q (g q)) c).getD p 0 =
        if p ∈ ids then g p else c.getD p 0 := by
  intro ids
  induction ids with
  | nil => intro c p _ _; simp
  | cons q qt ih =>
    intro c p hnd hbnd
    have h1 : (q :: qt).foldl (fun ch s => ch.set s (g s)) c =
        qt.foldl (fun ch s => ch.set s (g s)) (c.set q (g q)) := rfl
    have hqn : q ∉ qt := (List.nodup_cons.1 hnd).1
    have hndt : qt.Nodup := (List.nodup_cons.1 hnd).2
    have hbndt : ∀ s ∈ qt, s < (c.set q (g q)).length := by
      intro s hs
      simpa using hbnd s (by simp [hs])
    rw [h1, ih (c.set q (g q)) p hndt hbndt]
    by_cases hpq : p = q
    · subst hpq
      rw [if_neg hqn, if_pos (by simp)]
      exact getD_set_self c p (g p) (hbnd p (by simp))
    · by_cases hpt : p ∈ qt
      · rw [if_pos hpt, if_pos (by simp [hpt])]
      · rw [if_neg hpt, if_neg (by simp [hpq, hpt])]
        exact getD_set_ne c q (g q) p (fun h => hpq h.symm)

theorem remove_excess_ok_bounds (zTol eps : ℚ) (values : List ℚ) (excess : ℚ)
    (perm : List ℕ) (us : List ℚ) (r : List ℚ)
    (hv : ∀ v ∈ values, 0 ≤ v)
    (he0 : 0 ≤ excess)
    (hperm : perm.Perm (List.range values.length))
    (hus : us.length + 1 = values.length)
    (huB : ∀ u ∈ us, 0 ≤ u ∧ u ≤ 1)
    (hzT : 0 ≤ zTol)
    (hok : remove_excess zTol eps values excess perm us = .ok r) :
    (∀ i, 0 ≤ r.getD i 0 ∧ r.getD i 0 ≤ values.getD i 0) ∧
    r.sum ≤ values.sum - excess := by
  obtain ⟨hnlt, hne0, hclamp, _⟩ :=
    remove_excess_ok_inversion zTol eps values excess perm us r hok
  have hpos : 0 < values.sum :=
    lt_of_le_of_ne (List.sum_nonneg hv) (fun h => hne0 h.symm)
  obtain ⟨hrplen, hrppt, hrpsum⟩ :=
    repairedList_spec values excess perm us hv hpos he0 (not_lt.1 hnlt) hperm hus huB
  have hrpnn : ∀ v ∈ repairedList values excess perm us, 0 ≤ v :=
    mem_nonneg_of_getD _ (fun i => (hrppt i).1)
  obtain ⟨r0, hcl0, _, hrpt, _, hrs2⟩ :=
    clampRepairedValues_spec zTol hzT (repairedList values excess perm us) hrpnn
  have hrr0 : r = r0 := by
    rw [hclamp] at hcl0
    exact Except.ok.inj hcl0
  subst hrr0
  constructor
  · intro i
    exact ⟨(hrpt i).1, le_trans (hrpt i).2 (hrppt i).2⟩
  · rw [hrpsum] at hrs2
    exact hrs2

theorem repairLink_ok_spec (net : NetModel) (zTol eps : ℚ) (c : List ℚ) (l : ℕ)
    (perm : List ℕ) (us : List ℚ) (c2 : List ℚ)
    (hc : ∀ p, 0 ≤ c.getD p 0)
    (hmat : ∀ p l2, net.matrix p l2 = 0 ∨ net.matrix p l2 = 1)
    (hperm : perm.Perm (List.range c.length))
    (hus : us.length + 1 = c.length)
    (huB : ∀ u ∈ us, 0 ≤ u ∧ u ≤ 1)
    (hzT : 0 ≤ zTol)
    (hviol : capacityOf net l < linkUsage net c l)
    (hok : repairLink net zTol eps c l perm us = .ok c2) :
    c2.length = c.length ∧
    (∀ p, 0 ≤ c2.getD p 0 ∧ c2.getD p 0 ≤ c.getD p 0) ∧
    linkUsage net c2 l ≤ capacityOf net l := by
  have hcollen : (linkColumn net c l).length = c.length := by simp [linkColumn]
  have hcolgd : ∀ p, p < c.length →
      (linkColumn net c l).getD p 0 = c.getD p 0 * net.matrix p l := by
    intro p hp
    exact getD_map_range c.length _ p hp
  have hmnn : ∀ p l2, 0 ≤ net.matrix p l2 := by
    intro p l2
    rcases hmat p l2 with h | h <;> rw [h] <;> norm_num
  have hcolnn : ∀ v ∈ linkColumn net c l, 0 ≤ v := by
    intro v hv
    rw [linkColumn, List.mem_map] at hv
    obtain ⟨p, _, rfl⟩ := hv
    exact mul_nonneg (hc p) (hmnn p l)
  simp only [repairLink] at hok
  cases hre : remove_excess zTol eps (linkColumn net c l)
      (linkUsage net c l - capacityOf net l) perm us with
  | error e => rw [hre] at hok; exact absurd hok (by simp)
  | ok rep =>
    rw [hre] at hok
    dsimp only at hok
    injection hok with hc2
    have he0 : (0:ℚ) ≤ linkUsage net c l - capacityOf net l := by linarith
    obtain ⟨hbpt, hbsum⟩ := remove_excess_ok_bounds zTol eps (linkColumn net c l)
      (linkUsage net c l - capacityOf net l) perm us rep hcolnn he0
      (by rw [hcollen]; exact hperm) (by rw [hcollen]; exact hus) huB hzT hre
    have hreplen : rep.length = c.length := by
      rw [remove_excess_ok_length _ _ _ _ _ _ _ hre, hcollen]
    set nonZero := (List.range c.length).filter
      (fun p => decide (0 < (linkColumn net c l).getD p 0)) with hnz
    have hnzn : nonZero.Nodup := (List.nodup_range c.length).filter _
    have hnzb : ∀ q ∈ nonZero, q < c.length := by
      intro q hq
      rw [hnz, List.mem_filter, List.mem_range] at hq
      exact hq.1
    have hc2eq : c2 = nonZero.foldl (fun ch p => ch.set p (rep.getD p 0)) c := hc2.symm
    have hc2len : c2.length = c.length := by
      rw [hc2eq]
      exact setAll_length (fun p => rep.getD p 0) nonZero c
    have hc2gd : ∀ p, c2.getD p 0 =
        if p ∈ nonZero then rep.getD p 0 else c.getD p 0 := by
      intro p
      rw [hc2eq]
      exact setAll_getD (fun p => rep.getD p 0) nonZero c p hnzn hnzb
    have hmem_one : ∀ p ∈ nonZero, net.matrix p l = 1 ∧
        (linkColumn net c l).getD p 0 = c.getD p 0 := by
      intro p hp
      have hplt : p < c.length := hnzb p hp
      have hppos : 0 < (linkColumn net c l).getD p 0 := by
        rw [hnz, List.mem_filter] at hp
        simpa using hp.2
      rcases hmat p l with h0 | h1
      · rw [hcolgd p hplt, h0, mul_zero] at hppos
        exact absurd hppos (by norm_num)
      · exact ⟨h1, by rw [hcolgd p hplt, h1, mul_one]⟩
    have hpt : ∀ p, 0 ≤ c2.getD p 0 ∧ c2.getD p 0 ≤ c.getD p 0 := by
      intro p
      rw [hc2gd p]
      by_cases hp : p ∈ nonZero
      · rw [if_pos hp]
        refine ⟨(hbpt p).1, ?_⟩
        have := (hbpt p).2
        rw [(hmem_one p hp).2] at this
        exact this
      · rw [if_neg hp]
        exact ⟨hc p, le_refl _⟩
    refine ⟨hc2len, hpt, ?_⟩
    have hack2 : ((net.ackPaths l).map (fun a => c2.getD a 0 * ackFactor)).sum ≤
        ((net.ackPaths l).map (fun a => c.getD a 0 * ackFactor)).sum := by
      apply List.sum_le_sum
      intro a _
      exact mul_le_mul_of_nonneg_right (hpt a).2 (by norm_num [ackFactor])
    have hdata : (linkColumn net c2 l).sum ≤ rep.sum := by
      have he1 : linkColumn net c2 l = (List.range c.length).map
          (fun p => c2.getD p 0 * net.matrix p l) := by
        rw [linkColumn, hc2len]
      have he2 : (List.range c.length).map (fun p => c2.getD p 0 * net.matrix p l) =
          (List.range c.length).map
            (fun p => if decide (0 < (linkColumn net c l).getD p 0) = true
              then rep.getD p 0 else 0) := by
        apply List.map_congr_left
        intro p hp
        rw [List.mem_range] at hp
        by_cases hpz : p ∈ nonZero
        · have hmem := hpz
          rw [hnz, List.mem_filter] at hmem
          rw [if_pos hmem.2, hc2gd p, if_pos hpz, (hmem_one p hpz).1, mul_one]
        · have hnotpred : ¬ (decide (0 < (linkColumn net c l).getD p 0) = true) := by
            intro hpred
            exact hpz (by rw [hnz, List.mem_filter]; exact ⟨List.mem_range.2 hp, hpred⟩)
          rw [if_neg hnotpred, hc2gd p, if_neg hpz]
          have hz : (linkColumn net c l).getD p 0 = 0 := by
            have hge : 0 ≤ (linkColumn net c l).getD p 0 :=
              getD_nonneg_of_forall _ hcolnn p
            have hngt : ¬ (0 < (linkColumn net c l).getD p 0) := by simpa using hnotpred
            exact le_antisymm (not_lt.1 hngt) hge
          rw [hcolgd p hp] at hz
          exact hz
      rw [he1, he2, sum_map_ite_filter (fun p => decide (0 < (linkColumn net c l).getD p 0))
        (fun p => rep.getD p 0) (List.range c.length)]
      have hle := sum_filter_le (fun p => decide (0 < (linkColumn net c l).getD p 0))
        (fun p => rep.getD p 0) (List.range c.length)
        (fun i _ => (hbpt i).1)
      rw [← hreplen] at hle
      rw [sum_range_getD rep] at hle
      rw [hreplen] at hle
      exact hle
    have husage : linkUsage net c l =
        (linkColumn net c l).sum +
          ((net.ackPaths l).map (fun a => c.getD a 0 * ackFactor)).sum := rfl
    have husage2 : linkUsage net c2 l =
        (linkColumn net c2 l).sum +
          ((net.ackPaths l).map (fun a => c2.getD a 0 * ackFactor)).sum := rfl
    rw [husage2]
    have : rep.sum ≤ (linkColumn net c l).sum - (linkUsage net c l - capacityOf net l) :=
      hbsum
    linarith [husage.symm.le]

theorem linkUsage_mono (net : NetModel) (c c2 : List ℚ) (hlen : c2.length = c.length)
    (hmnn : ∀ p l2, 0 ≤ net.matrix p l2)
    (hpt : ∀ p, c2.getD p 0 ≤ c.getD p 0) :
    ∀ l2, linkUsage net c2 l2 ≤ linkUsage net c l2 := by
  intro l2
  have hdata : (linkColumn net c2 l2).sum ≤ (linkColumn net c l2).sum := by
    rw [linkColumn, linkColumn, hlen]
    apply List.sum_le_sum
    intro p _
    exact mul_le_mul_of_nonneg_right (hpt p) (hmnn p l2)
  have hack : ((net.ackPaths l2).map (fun a => c2.getD a 0 * ackFactor)).sum ≤
      ((net.ackPaths l2).map (fun a => c.getD a 0 * ackFactor)).sum := by
    apply List.sum_le_sum
    intro a _
    exact mul_le_mul_of_nonneg_right (hpt a) (by norm_num [ackFactor])
  show (linkColumn net c2 l2).sum + _ ≤ (linkColumn net c l2).sum + _
  linarith

theorem scanLinks_repaired (net : NetModel) (zTol eps : ℚ) (c : List ℚ)
    (perm : List ℕ) (us : List ℚ) :
    ∀ (order : List ℕ) (c2 : List ℚ),
      scanLinks net zTol eps c order perm us = .repaired c2 →
      ∃ l ∈ order, capacityOf net l < linkUsage net c l ∧
        repairLink net zTol eps c l perm us = .ok c2 := by
  intro order
  induction order with
  | nil => intro c2 h; simp [scanLinks] at h
  | cons l0 rest ih =>
    intro c2 h
    simp only [scanLinks] at h
    by_cases hviol : capacityOf net l0 < linkUsage net c l0
    · rw [if_pos hviol] at h
      cases hre : repairLink net zTol eps c l0 perm us with
      | error e => rw [hre] at h; exact absurd h (by simp)
      | ok c3 =>
        rw [hre] at h
        dsimp only at h
        injection h with h2
        exact ⟨l0, by simp, hviol, by rw [hre, h2]⟩
    · rw [if_neg hviol] at h
      obtain ⟨l, hl, hv, hok⟩ := ih c2 h
      exact ⟨l, by simp [hl], hv, hok⟩

theorem scanLinks_failed (net : NetModel) (zTol eps : ℚ) (c : List ℚ)
    (perm : List ℕ) (us : List ℚ) :
    ∀ (order : List ℕ) (e : GaError),
      scanLinks net zTol eps c order perm us = .failed e →
      ∃ l ∈ order, repairLink net zTol eps c l perm us = .error e := by
  intro order
  induction order with
  | nil => intro e h; simp [scanLinks] at h
  | cons l0 rest ih =>
    intro e h
    simp only [scanLinks] at h
    by_cases hviol : capacityOf net l0 < linkUsage net c l0
    · rw [if_pos hviol] at h
      cases hre : repairLink net zTol eps c l0 perm us with
      | error e2 =>
        rw [hre] at h
        dsimp only at h
        injection h with h2
        exact ⟨l0, by simp, by rw [hre, h2]⟩
      | ok c3 => rw [hre] at h; exact absurd h (by simp)
    · rw [if_neg hviol] at h
      obtain ⟨l, hl, hok⟩ := ih e h
      exact ⟨l, by simp [hl], hok⟩

theorem repairLink_error (net : NetModel) (zTol eps : ℚ) (c : List ℚ) (l : ℕ)
    (perm : List ℕ) (us : List ℚ) (e : GaError)
    (h : repairLink net zTol eps c l perm us = .error e) :
    remove_excess zTol eps (linkColumn net c l)
      (linkUsage net c l - capacityOf net l) perm us = .error e := by
  simp only [repairLink] at h
  cases hre : remove_excess zTol eps (linkColumn net c l)
      (linkUsage net c l - capacityOf net l) perm us with
  | error e2 =>
    rw [hre] at h
    dsimp only at h
    injection h with h2
    rw [h2]
  | ok rep => rw [hre] at h; exact absurd h (by simp)

theorem remove_excess_error_kinds (zTol eps : ℚ) (values : List ℚ) (excess : ℚ)
    (perm : List ℕ) (us : List ℚ) (e : GaError)
    (h : remove_excess zTol eps values excess perm us = .error e) :
    e ≠ .outOfFuel := by
  by_cases h1 : values.sum < excess
  · simp only [remove_excess, if_pos h1] at h
    injection h with h2
    rw [← h2]
    intro hc
    cases hc
  by_cases h2 : values.sum = 0
  · simp only [remove_excess, if_neg h1, if_pos h2] at h
    injection h with h3
    rw [← h3]
    intro hc
    cases hc
  simp only [remove_excess, if_neg h1, if_neg h2] at h
  cases hcl : clampRepairedValues zTol (repairedList values excess perm us) with
  | error e2 =>
    rw [hcl] at h
    dsimp only at h
    injection h with h3
    rw [← h3, clampRepairedValues_error zTol _ e2 hcl]
    intro hc
    cases hc
  | ok r =>
    rw [hcl] at h
    dsimp only at h
    split_ifs at h with hcond
    injection h with h3
    subst h3
    intro hc
    cases hc

theorem filter_length_mono {α : Type} (p q : α → Bool) :
    ∀ l : List α, (∀ a ∈ l, p a = true → q a = true) →
      (l.filter p).length ≤ (l.filter q).length := by
  intro l
  induction l with
  | nil => intro _; simp
  | cons a t ih =>
    intro himp
    have iht := ih (fun b hb => himp b (by simp [hb]))
    by_cases hpa : p a = true
    · rw [List.filter_cons_of_pos hpa, List.filter_cons_of_pos (himp a (by simp) hpa)]
      simpa using iht
    · rw [List.filter_cons_of_neg (by simpa using hpa)]
      by_cases hqa : q a = true
      · rw [List.filter_cons_of_pos hqa]
        simp only [List.length_cons]
        omega
      · rw [List.filter_cons_of_neg (by simpa using hqa)]
        exact iht

theorem filter_length_lt {α : Type} (p q : α → Bool) :
    ∀ l : List α, (∀ a ∈ l, p a = true → q a = true) →
      ∀ a0 ∈ l, q a0 = true → p a0 = false →
      (l.filter p).length < (l.filter q).length := by
  intro l
  induction l with
  | nil => intro _ a0 h; exact absurd h (by simp)
  | cons a t ih =>
    intro himp a0 ha0 hq0 hp0
    have himpt : ∀ b ∈ t, p b = true → q b = true := fun b hb => himp b (by simp [hb])
    rcases List.mem_cons.1 ha0 with rfl | hat
    · rw [List.filter_cons_of_neg (by simp [hp0]), List.filter_cons_of_pos hq0]
      simp only [List.length_cons]
      have := filter_length_mono p q t himpt
      omega
    · have iht := ih himpt a0 hat hq0 hp0
      by_cases hpa : p a = true
      · rw [List.filter_cons_of_pos hpa, List.filter_cons_of_pos (himp a (by simp) hpa)]
        simpa using iht
      · rw [List.filter_cons_of_neg (by simpa using hpa)]
        by_cases hqa : q a = true
        · rw [List.filter_cons_of_pos hqa]
          simp only [List.length_cons]
          omega
        · rw [List.filter_cons_of_neg (by simpa using hqa)]
          exact iht

theorem linkRepairLoop_no_fuel_exhaustion (net : NetModel) (zTol eps : ℚ)
    (rand : ℕ → List ℕ × List ℕ × List ℚ) (n0 : ℕ)
    (hmat : ∀ p l2, net.matrix p l2 = 0 ∨ net.matrix p l2 = 1)
    (hzT : 0 ≤ zTol)
    (hrand : ∀ i, ((rand i).1.Perm (net.links.map LinkModel.id)) ∧
      ((rand i).2.1.Perm (List.range n0)) ∧ ((rand i).2.2.length + 1 = n0) ∧
      (∀ u ∈ (rand i).2.2, 0 ≤ u ∧ u ≤ 1)) :
    ∀ (fuel : ℕ) (c : List ℚ), c.length = n0 → (∀ p, 0 ≤ c.getD p 0) →
      violatedCount net c < fuel →
      validate_link_capacity_constraint net zTol eps rand fuel c ≠
        .error .outOfFuel := by
  intro fuel
  induction fuel with
  | zero =>
    intro c _ _ hcount
    exact absurd hcount (by omega)
  | succ m ih =>
    intro c hlen hc hcount
    simp only [validate_link_capacity_constraint]
    cases hscan : scanLinks net zTol eps c (rand m).1 (rand m).2.1 (rand m).2.2 with
    | noViolation => simp
    | failed e =>
      obtain ⟨l, _, hre⟩ := scanLinks_failed net zTol eps c
        (rand m).2.1 (rand m).2.2 (rand m).1 e hscan
      have hne := remove_excess_error_kinds zTol eps _ _ _ _ e
        (repairLink_error net zTol eps c l (rand m).2.1 (rand m).2.2 e hre)
      simp [hne]
    | repaired c2 =>
      obtain ⟨l, hlmem, hviol, hrep⟩ := scanLinks_repaired net zTol eps c
        (rand m).2.1 (rand m).2.2 (rand m).1 c2 hscan
      obtain ⟨hperm0, hperm1, hus1, huB1⟩ := hrand m
      obtain ⟨hc2len, hpt, hle⟩ := repairLink_ok_spec net zTol eps c l
        (rand m).2.1 (rand m).2.2 c2 hc hmat
        (by rw [hlen]; exact hperm1) (by rw [hlen]; exact hus1) huB1 hzT hviol hrep
      have hmnn : ∀ p l2, 0 ≤ net.matrix p l2 := by
        intro p l2
        rcases hmat p l2 with h | h <;> rw [h] <;> norm_num
      have hmono := linkUsage_mono net c c2 hc2len hmnn (fun p => (hpt p).2)
      have hL0 : ∃ L0 ∈ net.links, L0.id = l := by
        have h1 : l ∈ net.links.map LinkModel.id := (hperm0.mem_iff).1 hlmem
        rw [List.mem_map] at h1
        obtain ⟨L0, hL0m, hL0id⟩ := h1
        exact ⟨L0, hL0m, hL0id⟩
      obtain ⟨L0, hL0m, hL0id⟩ := hL0
      have hdec : violatedCount net c2 < violatedCount net c := by
        apply filter_length_lt _ _ net.links
        · intro L _ hp
          rw [decide_eq_true_eq] at hp ⊢
          exact lt_of_lt_of_le hp (hmono L.id)
        · exact hL0m
        · rw [decide_eq_true_eq, hL0id]
          exact hviol
        · rw [decide_eq_false_iff_not, hL0id]
          exact not_lt.2 hle
      exact ih c2 (by rw [hc2len, hlen]) (fun p => (hpt p).1) (by omega)

/-- Claim C5 (behaviour of the code at ga_operators.py lines 461-505): each
successful per-link repair brings the repaired link's usage down to at most
its capacity, hence strictly below its previous over-capacity usage, and
once a link satisfies its capacity it stays satisfied, so the loop finds no
violation after at most `number of links` repairs: running the loop with
fuel `links.length + 1` never exhausts the fuel, for every input chromosome
and every randomness oracle.  The Python loop itself carries no pass bound
and no fatal iteration-cap error (the claim's bound-and-raise clause has no
counterpart in the code). -/
theorem link_repair_strict_decrease_and_termination (net : NetModel) (zTol eps : ℚ)
    (rand : ℕ → List ℕ × List ℕ × List ℚ) (n0 : ℕ) (c : List ℚ)
    (hmat : ∀ p l2, net.matrix p l2 = 0 ∨ net.matrix p l2 = 1)
    (hzT : 0 ≤ zTol)
    (hrand : ∀ i, ((rand i).1.Perm (net.links.map LinkModel.id)) ∧
      ((rand i).2.1.Perm (List.range n0)) ∧ ((rand i).2.2.length + 1 = n0) ∧
      (∀ u ∈ (rand i).2.2, 0 ≤ u ∧ u ≤ 1))
    (hlen : c.length = n0) (hc : ∀ p, 0 ≤ c.getD p 0) :
    (∀ (c0 c2 : List ℚ) (l : ℕ) (perm : List ℕ) (us : List ℚ),
        c0.length = n0 → (∀ p, 0 ≤ c0.getD p 0) →
        perm.Perm (List.range n0) → us.length + 1 = n0 →
        (∀ u ∈ us, 0 ≤ u ∧ u ≤ 1) →
        capacityOf net l < linkUsage net c0 l →
        repairLink net zTol eps c0 l perm us = .ok c2 →
        linkUsage net c2 l < linkUsage net c0 l) ∧
    validate_link_capacity_constraint net zTol eps rand (net.links.length + 1) c ≠
      .error .outOfFuel := by
  constructor
  · intro c0 c2 l perm us hlen0 hc0 hperm hus huB hviol hrep
    obtain ⟨_, _, hle⟩ := repairLink_ok_spec net zTol eps c0 l perm us c2 hc0 hmat
      (by rw [hlen0]; exact hperm) (by rw [hlen0]; exact hus) huB hzT hviol hrep
    linarith
  · apply linkRepairLoop_no_fuel_exhaustion net zTol eps rand n0 hmat hzT hrand
      (net.links.length + 1) c hlen hc
    have : violatedCount net c ≤ net.links.length := by
      rw [violatedCount]
      exact List.length_filter_le _ _
    omega

/-- Witness for C5 on the one-link network of capacity 10 with chromosome
[8, 5]. -/
theorem link_repair_strict_decrease_and_termination_witness :
    (∀ (c0 c2 : List ℚ) (l : ℕ) (perm : List ℕ) (us : List ℚ),
        c0.length = 2 → (∀ p, 0 ≤ c0.getD p 0) →
        perm.Perm (List.range 2) → us.length + 1 = 2 →
        (∀ u ∈ us, 0 ≤ u ∧ u ≤ 1) →
        capacityOf (NetModel.mk [LinkModel.mk 0 10]
            (fun _ l2 => if l2 = 0 then 1 else 0) (fun _ => [])) l <
          linkUsage (NetModel.mk [LinkModel.mk 0 10]
            (fun _ l2 => if l2 = 0 then 1 else 0) (fun _ => [])) c0 l →
        repairLink (NetModel.mk [LinkModel.mk 0 10]
            (fun _ l2 => if l2 = 0 then 1 else 0) (fun _ => []))
          (1/1000000000) (1/1000000) c0 l perm us = .ok c2 →
        linkUsage (NetModel.mk [LinkModel.mk 0 10]
            (fun _ l2 => if l2 = 0 then 1 else 0) (fun _ => [])) c2 l <
          linkUsage (NetModel.mk [LinkModel.mk 0 10]
            (fun _ l2 => if l2 = 0 then 1 else 0) (fun _ => [])) c0 l) ∧
    validate_link_capacity_constraint (NetModel.mk [LinkModel.mk 0 10]
        (fun _ l2 => if l2 = 0 then 1 else 0) (fun _ => []))
      (1/1000000000) (1/1000000) (fun _ => ([0], [0, 1], [0]))
      ([LinkModel.mk 0 10].length + 1) [8, 5] ≠ .error .outOfFuel :=
  link_repair_strict_decrease_and_termination
    (NetModel.mk [LinkModel.mk 0 10] (fun _ l2 => if l2 = 0 then 1 else 0) (fun _ => []))
    (1/1000000000) (1/1000000) (fun _ => ([0], [0, 1], [0])) 2 [8, 5]
    (by
      intro p l2
      by_cases h : l2 = 0
      · right; simp [h]
      · left; simp [h])
    (by norm_num)
    (fun _ => ⟨(by decide : ([0] : List ℕ).Perm
        ([LinkModel.mk 0 10].map LinkModel.id)),
      (by decide : ([0, 1] : List ℕ).Perm (List.range 2)), rfl,
      by intro u hu; simp at hu; subst hu; norm_num⟩)
    rfl
    (by
      intro p
      apply getD_nonneg_of_forall
      intro v hv
      simp at hv
      rcases hv with h | h <;> rw [h] <;> norm_num)

theorem swapIds_length (ids : List ℕ) :
    ∀ cs : List ℚ × List ℚ, (swapIds ids cs).1.length = cs.1.length ∧
      (swapIds ids cs).2.length = cs.2.length := by
  induction ids with
  | nil => intro cs; exact ⟨rfl, rfl⟩
  | cons q qt ih =>
    intro cs
    have h1 : swapIds (q :: qt) cs =
        swapIds qt (cs.1.set q (cs.2.getD q 0), cs.2.set q (cs.1.getD q 0)) := rfl
    rw [h1]
    obtain ⟨ha, hb⟩ := ih (cs.1.set q (cs.2.getD q 0), cs.2.set q (cs.1.getD q 0))
    constructor
    · rw [ha]; simp
    · rw [hb]; simp

theorem swapIds_getD_not_mem (ids : List ℕ) :
    ∀ (cs : List ℚ × List ℚ) (p : ℕ), p ∉ ids →
      (swapIds ids cs).1.getD p 0 = cs.1.getD p 0 ∧
      (swapIds ids cs).2.getD p 0 = cs.2.getD p 0 := by
  induction ids with
  | nil => intro cs p _; exact ⟨rfl, rfl⟩
  | cons q qt ih =>
    intro cs p hp
    have h1 : swapIds (q :: qt) cs =
        swapIds qt (cs.1.set q (cs.2.getD q 0), cs.2.set q (cs.1.getD q 0)) := rfl
    have hpq : q ≠ p := fun h => hp (by simp [h])
    have hpt : p ∉ qt := fun h => hp (by simp [h])
    rw [h1]
    obtain ⟨ha, hb⟩ := ih (cs.1.set q (cs.2.getD q 0), cs.2.set q (cs.1.getD q 0)) p hpt
    rw [ha, hb]
    exact ⟨getD_set_ne _ q _ p hpq, getD_set_ne _ q _ p hpq⟩

theorem swapIds_getD_mem (ids : List ℕ) :
    ∀ (cs : List ℚ × List ℚ) (p : ℕ), ids.Nodup →
      (∀ q ∈ ids, q < cs.1.length ∧ q < cs.2.length) → p ∈ ids →
      (swapIds ids cs).1.getD p 0 = cs.2.getD p 0 ∧
      (swapIds ids cs).2.getD p 0 = cs.1.getD p 0 := by
  induction ids with
  | nil => intro cs p _ _ hp; exact absurd hp (by simp)
  | cons q qt ih =>
    intro cs p hnd hbnd hp
    have h1 : swapIds (q :: qt) cs =
        swapIds qt (cs.1.set q (cs.2.getD q 0), cs.2.set q (cs.1.getD q 0)) := rfl
    have hqn : q ∉ qt := (List.nodup_cons.1 hnd).1
    have hndt : qt.Nodup := (List.nodup_cons.1 hnd).2
    have hbndt : ∀ s ∈ qt, s < (cs.1.set q (cs.2.getD q 0)).length ∧
        s < (cs.2.set q (cs.1.getD q 0)).length := by
      intro s hs
      have hthis := hbnd s (by simp [hs])
      exact ⟨by simpa using hthis.1, by simpa using hthis.2⟩
    rw [h1]
    by_cases hpq : p = q
    · subst hpq
      obtain ⟨ha, hb⟩ := swapIds_getD_not_mem qt
        (cs.1.set p (cs.2.getD p 0), cs.2.set p (cs.1.getD p 0)) p hqn
      rw [ha, hb]
      have hbp := hbnd p (by simp)
      exact ⟨getD_set_self cs.1 p _ hbp.1, getD_set_self cs.2 p _ hbp.2⟩
    · have hpt : p ∈ qt := by
        rcases List.mem_cons.1 hp with h | h
        · exact absurd h hpq
        · exact h
      obtain ⟨ha, hb⟩ := ih (cs.1.set q (cs.2.getD q 0), cs.2.set q (cs.1.getD q 0))
        p hndt hbndt hpt
      rw [ha, hb]
      exact ⟨getD_set_ne _ q _ p (fun h => hpq h.symm),
        getD_set_ne _ q _ p (fun h => hpq h.symm)⟩

theorem swapFlowsAux_length (coins : ℕ → Bool) :
    ∀ (flows : List FlowModel) (i : ℕ) (cs : List ℚ × List ℚ),
      (swapFlowsAux coins flows i cs).1.length = cs.1.length ∧
      (swapFlowsAux coins flows i cs).2.length = cs.2.length := by
  intro flows
  induction flows with
  | nil => intro i cs; exact ⟨rfl, rfl⟩
  | cons f rest ih =>
    intro i cs
    have h1 : swapFlowsAux coins (f :: rest) i cs =
        swapFlowsAux coins rest (i + 1) (if coins i then swapIds f.pathIds cs else cs) := rfl
    rw [h1]
    by_cases hco : coins i
    · rw [if_pos hco]
      obtain ⟨ha, hb⟩ := ih (i + 1) (swapIds f.pathIds cs)
      obtain ⟨hc, hd⟩ := swapIds_length f.pathIds cs
      exact ⟨by rw [ha, hc], by rw [hb, hd]⟩
    · rw [if_neg hco]
      exact ih (i + 1) cs

theorem swapFlowsAux_frame (coins : ℕ → Bool) :
    ∀ (flows : List FlowModel) (i : ℕ) (cs : List ℚ × List ℚ) (p : ℕ),
      (∀ g ∈ flows, p ∉ g.pathIds) →
      (swapFlowsAux coins flows i cs).1.getD p 0 = cs.1.getD p 0 ∧
      (swapFlowsAux coins flows i cs).2.getD p 0 = cs.2.getD p 0 := by
  intro flows
  induction flows with
  | nil => intro i cs p _; exact ⟨rfl, rfl⟩
  | cons f rest ih =>
    intro i cs p hp
    have h1 : swapFlowsAux coins (f :: rest) i cs =
        swapFlowsAux coins rest (i + 1) (if coins i then swapIds f.pathIds cs else cs) := rfl
    rw [h1]
    obtain ⟨ha, hb⟩ := ih (i + 1) (if coins i then swapIds f.pathIds cs else cs) p
      (fun g hg => hp g (by simp [hg]))
    rw [ha, hb]
    by_cases hco : coins i
    · rw [if_pos hco]
      exact swapIds_getD_not_mem f.pathIds cs p (hp f (by simp))
    · rw [if_neg hco]
      exact ⟨rfl, rfl⟩

theorem swapFlowsAux_spec (coins : ℕ → Bool) :
    ∀ (flows : List FlowModel) (i : ℕ) (cs : List ℚ × List ℚ),
      FlowsDisjoint flows →
      (∀ f ∈ flows, f.pathIds.Nodup) →
      (∀ f ∈ flows, ∀ p ∈ f.pathIds, p < cs.1.length ∧ p < cs.2.length) →
      ∀ f ∈ flows,
        (subVec (swapFlowsAux coins flows i cs).1 f = subVec cs.1 f ∧
         subVec (swapFlowsAux coins flows i cs).2 f = subVec cs.2 f) ∨
        (subVec (swapFlowsAux coins flows i cs).1 f = subVec cs.2 f ∧
         subVec (swapFlowsAux coins flows i cs).2 f = subVec cs.1 f) := by
  intro flows
  induction flows with
  | nil => intro i cs _ _ _ f hf; exact absurd hf (by simp)
  | cons g rest ih =>
    intro i cs hdisj hnd hbnd f hf
    have hdhead : ∀ h ∈ rest, ∀ p ∈ g.pathIds, p ∉ h.pathIds :=
      (List.pairwise_cons.1 hdisj).1
    have hdisjt : FlowsDisjoint rest := (List.pairwise_cons.1 hdisj).2
    have h1 : swapFlowsAux coins (g :: rest) i cs =
        swapFlowsAux coins rest (i + 1) (if coins i then swapIds g.pathIds cs else cs) := rfl
    set cs2 := if coins i then swapIds g.pathIds cs else cs with hcs2
    have hcs2len : cs2.1.length = cs.1.length ∧ cs2.2.length = cs.2.length := by
      rw [hcs2]
      by_cases hco : coins i
      · rw [if_pos hco]; exact swapIds_length g.pathIds cs
      · rw [if_neg hco]; exact ⟨rfl, rfl⟩
    rcases List.mem_cons.1 hf with rfl | hfr
    · have hframe : ∀ p ∈ f.pathIds,
          (swapFlowsAux coins rest (i + 1) cs2).1.getD p 0 = cs2.1.getD p 0 ∧
          (swapFlowsAux coins rest (i + 1) cs2).2.getD p 0 = cs2.2.getD p 0 := by
        intro p hp
        exact swapFlowsAux_frame coins rest (i + 1) cs2 p
          (fun h hh => hdhead h hh p hp)
      have hsub1 : subVec (swapFlowsAux coins (f :: rest) i cs).1 f = subVec cs2.1 f := by
        rw [h1, subVec, subVec]
        exact List.map_congr_left (fun p hp => (hframe p hp).1)
      have hsub2 : subVec (swapFlowsAux coins (f :: rest) i cs).2 f = subVec cs2.2 f := by
        rw [h1, subVec, subVec]
        exact List.map_congr_left (fun p hp => (hframe p hp).2)
      rw [hsub1, hsub2, hcs2]
      by_cases hco : coins i
      · rw [if_pos hco]
        right
        constructor
        · rw [subVec, subVec]
          exact List.map_congr_left (fun p hp =>
            (swapIds_getD_mem f.pathIds cs p (hnd f (by simp))
              (fun q hq => hbnd f (by simp) q hq) hp).1)
        · rw [subVec, subVec]
          exact List.map_congr_left (fun p hp =>
            (swapIds_getD_mem f.pathIds cs p (hnd f (by simp))
              (fun q hq => hbnd f (by simp) q hq) hp).2)
      · rw [if_neg hco]
        left
        exact ⟨rfl, rfl⟩
    · have hrec := ih (i + 1) cs2 hdisjt (fun h hh => hnd h (by simp [hh]))
        (by
          intro h hh p hp
          have := hbnd h (by simp [hh]) p hp
          exact ⟨by rw [hcs2len.1]; exact this.1, by rw [hcs2len.2]; exact this.2⟩)
        f hfr
      have hsame : ∀ p ∈ f.pathIds, cs2.1.getD p 0 = cs.1.getD p 0 ∧
          cs2.2.getD p 0 = cs.2.getD p 0 := by
        intro p hp
        rw [hcs2]
        by_cases hco : coins i
        · rw [if_pos hco]
          apply swapIds_getD_not_mem
          intro hpg
          exact hdhead f hfr p hpg hp
        · rw [if_neg hco]
          exact ⟨rfl, rfl⟩
      have hv1 : subVec cs2.1 f = subVec cs.1 f :=
        List.map_congr_left (fun p hp => (hsame p hp).1)
      have hv2 : subVec cs2.2 f = subVec cs.2 f :=
        List.map_congr_left (fun p hp => (hsame p hp).2)
      rw [h1]
      rcases hrec with ⟨ha, hb⟩ | ⟨ha, hb⟩
      · left; rw [ha, hb, hv1, hv2]; exact ⟨rfl, rfl⟩
      · right; rw [ha, hb, hv1, hv2]; exact ⟨rfl, rfl⟩

/-- Claim C6: after the crossover swap loop and before any repair, every
flow's sub-vector in each child is exactly that flow's sub-vector of one of
the two parents (the swap moves whole flows, never single genes), and the
children returned by `mate_chromosomes` are the swapped chromosomes passed
through link-capacity repair only (no flow-rate repair is invoked). -/
theorem mate_chromosomes_whole_flow_swap (net : NetModel) (zTol eps : ℚ)
    (flows : List FlowModel) (coins : ℕ → Bool)
    (rand1 rand2 : ℕ → List ℕ × List ℕ × List ℚ) (fuel : ℕ) (c1 c2 : List ℚ)
    (hdisj : FlowsDisjoint flows)
    (hnd : ∀ f ∈ flows, f.pathIds.Nodup)
    (hbnd : ∀ f ∈ flows, ∀ p ∈ f.pathIds, p < c1.length ∧ p < c2.length) :
    mate_chromosomes net zTol eps flows coins rand1 rand2 fuel c1 c2 =
      (validate_link_capacity_constraint net zTol eps rand1 fuel
        (swapFlows flows coins c1 c2).1,
       validate_link_capacity_constraint net zTol eps rand2 fuel
        (swapFlows flows coins c1 c2).2) ∧
    ∀ f ∈ flows,
      (subVec (swapFlows flows coins c1 c2).1 f = subVec c1 f ∧
       subVec (swapFlows flows coins c1 c2).2 f = subVec c2 f) ∨
      (subVec (swapFlows flows coins c1 c2).1 f = subVec c2 f ∧
       subVec (swapFlows flows coins c1 c2).2 f = subVec c1 f) :=
  ⟨rfl, swapFlowsAux_spec coins flows 0 (c1, c2) hdisj hnd hbnd⟩

/-- Witness for C6 on two single-path flows with parents [1, 2] and [3, 4]
and a coin that swaps only the first flow. -/
theorem mate_chromosomes_whole_flow_swap_witness :
    mate_chromosomes (NetModel.mk [LinkModel.mk 0 100] (fun _ _ => 0) (fun _ => []))
        (1/1000000000) (1/1000000)
        [FlowModel.mk [0] [1] 10, FlowModel.mk [1] [1] 10]
        (fun i => i == 0) (fun _ => ([0], [0, 1], [0])) (fun _ => ([0], [0, 1], [0]))
        2 [1, 2] [3, 4] =
      (validate_link_capacity_constraint
        (NetModel.mk [LinkModel.mk 0 100] (fun _ _ => 0) (fun _ => []))
        (1/1000000000) (1/1000000) (fun _ => ([0], [0, 1], [0])) 2
        (swapFlows [FlowModel.mk [0] [1] 10, FlowModel.mk [1] [1] 10]
          (fun i => i == 0) [1, 2] [3, 4]).1,
       validate_link_capacity_constraint
        (NetModel.mk [LinkModel.mk 0 100] (fun _ _ => 0) (fun _ => []))
        (1/1000000000) (1/1000000) (fun _ => ([0], [0, 1], [0])) 2
        (swapFlows [FlowModel.mk [0] [1] 10, FlowModel.mk [1] [1] 10]
          (fun i => i == 0) [1, 2] [3, 4]).2) ∧
    ∀ f ∈ [FlowModel.mk [0] [1] 10, FlowModel.mk [1] [1] 10],
      (subVec (swapFlows [FlowModel.mk [0] [1] 10, FlowModel.mk [1] [1] 10]
          (fun i => i == 0) [1, 2] [3, 4]).1 f = subVec [1, 2] f ∧
       subVec (swapFlows [FlowModel.mk [0] [1] 10, FlowModel.mk [1] [1] 10]
          (fun i => i == 0) [1, 2] [3, 4]).2 f = subVec [3, 4] f) ∨
      (subVec (swapFlows [FlowModel.mk [0] [1] 10, FlowModel.mk [1] [1] 10]
          (fun i => i == 0) [1, 2] [3, 4]).1 f = subVec [3, 4] f ∧
       subVec (swapFlows [FlowModel.mk [0] [1] 10, FlowModel.mk [1] [1] 10]
          (fun i => i == 0) [1, 2] [3, 4]).2 f = subVec [1, 2] f) :=
  mate_chromosomes_whole_flow_swap
    (NetModel.mk [LinkModel.mk 0 100] (fun _ _ => 0) (fun _ => []))
    (1/1000000000) (1/1000000)
    [FlowModel.mk [0] [1] 10, FlowModel.mk [1] [1] 10]
    (fun i => i == 0) (fun _ => ([0], [0, 1], [0])) (fun _ => ([0], [0, 1], [0]))
    2 [1, 2] [3, 4]
    (by unfold FlowsDisjoint; decide) (by decide) (by decide)

/-- Claim C7 counterexample: with configured weights [1, 0, 0, 0] the
claim's rule always selects min-path (its cumulative interval is [0, 1)),
but `mutate_chromosome` dispatches the draw 0.9 to max-flow through its
hard-coded 0.25/0.50/0.75 thresholds; the cumulative table built in
`__init__` is never consulted. -/
theorem mutation_strategy_ignores_weights :
    mutationStrategyFor (9/10) = .maxFlow ∧
    specPickStrategy (buildMutationFunctions [1, 0, 0, 0]
      [.minPath, .minCost, .minPathStdDev, .maxFlow]) (9/10) = some .minPath ∧
    (MutationType.maxFlow ≠ MutationType.minPath) := by
  refine ⟨?_, ?_, by decide⟩
  · norm_num [mutationStrategyFor]
  · norm_num [buildMutationFunctions, specPickStrategy]

/-- Claim C7 as amended: the strategy invoked for a selected flow is
determined solely by the hard-coded quartile thresholds of
`mutate_chromosome`, independently of the configured weights; equivalently,
the code behaves exactly as the claim's cumulative rule would with equal
weights 1/4 per strategy in code order, with max-flow as the fallback when
the draw falls outside every interval. -/
theorem mutation_strategy_fixed_quartiles (r : ℚ) :
    mutationStrategyFor r =
      (specPickStrategy (buildMutationFunctions [1/4, 1/4, 1/4, 1/4]
        [.minPath, .minCost, .minPathStdDev, .maxFlow]) r).getD .maxFlow := by
  have htab : buildMutationFunctions [1/4, 1/4, 1/4, 1/4]
      [MutationType.minPath, MutationType.minCost,
        MutationType.minPathStdDev, MutationType.maxFlow] =
      [(1/4, MutationType.minPath), (1/2, MutationType.minCost),
        (3/4, MutationType.minPathStdDev), (1, MutationType.maxFlow)] := by
    norm_num [buildMutationFunctions]
  rw [htab]
  simp only [mutationStrategyFor, specPickStrategy]
  split_ifs <;> first | rfl | (exfalso; linarith)

/-- Claim C8 evidence: on a flow with path costs [1, 1, 2] and rates
[4, 2, 1], the code's cost-keyed dictionary drops the first equal-cost path
from both the numerator and the normalising total, returning 5/6, while the
claim's per-path formula gives 13/14. -/
theorem delay_distribution_metric_drops_equal_cost_path :
    calculate_delay_distribution_metric
      [FlowModel.mk [0, 1, 2] [1, 1, 2] 15] [4, 2, 1] = 5/6 ∧
    specDelayDistributionMetric
      [FlowModel.mk [0, 1, 2] [1, 1, 2] 15] [4, 2, 1] = 13/14 ∧
    (5/6 : ℚ) ≠ 13/14 := by
  have h21 : ([4, 2, 1] : List ℚ)[1] = 2 := by norm_num
  refine ⟨?_, ?_, by norm_num⟩
  · norm_num [calculate_delay_distribution_metric, flowDelayMetric,
      pathDelayData, dictUpsert, minListD, min_def, List.any,
      List.getD_cons_succ, List.getD_cons_zero, h21]
    simp
  · norm_num [specDelayDistributionMetric, minListD, min_def, List.filter,
      List.getD_cons_succ, List.getD_cons_zero, h21]
